import Mathlib

/-!
Verification of `resample.py`: a shallow embedding of `resample_dataframe`
(the resampler mapping an irregular sample set onto a regular time grid)
over exact rationals, together with a binary64 rounding model for the
fixed-point scaling step.

The pipeline stages mirror the source line by line:
dedup (`drop_duplicates keep='last'`), fixed-point scaling
(`mul(precision).astype(int)`), index union with the regular grid
(`index.union(arange ...)`), reindexing, interpolation, forward/backward
fill, rounding to 4 decimals, grid filtering (`index % int(step*precision)`)
and rescaling.
-/

namespace Resampling

/-- DECIMAL_POINTS constant of the source. -/
def DECIMAL_POINTS : ℕ := 4

/-- Fixed-point scale factor `precision = 10**DECIMAL_POINTS`, as a rational. -/
def precisionQ : ℚ := 10 ^ DECIMAL_POINTS

/-- Truncation toward zero, the semantics of numpy `astype(int)` and
python `int(...)` on a real value. -/
def ratTrunc (q : ℚ) : ℤ := if 0 ≤ q then ⌊q⌋ else -⌊-q⌋

/-- Fixed-point scaling of one sample time: `df['time'].mul(precision).astype(int)`
idealized on exact rationals — the multiply is taken exact.  In the source
the product is a binary64 multiplication, which for some times truncates to
a different integer; `scaleTimeFloat` below models that behaviour, and the
floating-point analysis at the end of the file exhibits the divergence. -/
def scaleTime (t : ℚ) : ℤ := ratTrunc (t * precisionQ)

/-- Pandas `drop_duplicates('time', keep='last')`: a row survives iff no
later row carries the same time. -/
def dedupLast : List (ℚ × ℚ) → List (ℚ × ℚ)
  | [] => []
  | x :: rest =>
    if rest.any (fun y => decide (y.1 = x.1)) then dedupLast rest
    else x :: dedupLast rest

/-- The regular grid `np.arange(0, max_value*precision, step*precision)`:
ticks `k * (step*precision)` for `0 ≤ k < ⌈max_value/step⌉`. -/
def regularTicks (max_value step : ℚ) : List ℚ :=
  (List.range ⌈max_value / step⌉.toNat).map (fun k : ℕ => (k : ℚ) * (step * precisionQ))

/-- Pandas `Index.union` followed by `drop_duplicates`: the sorted
duplicate-free union of the two index lists. -/
def sortedUnion (a b : List ℚ) : List ℚ :=
  (List.insertionSort (· ≤ ·) (a ++ b)).dedup

/-- Pandas `reindex`: each label of the new index is paired with the value
the frame holds at that label, `none` (NaN) when the label is absent. -/
def reindexDF (scaled : List (ℚ × ℚ)) (idx : List ℚ) : List (ℚ × Option ℚ) :=
  idx.map (fun i => (i, (scaled.find? (fun p => decide (p.1 = i))).map Prod.snd))

/-- Method names the pandas interpolation backend accepts (the library's
`clean_interp_method` whitelist, the linear/spline/polynomial-order family);
any other name raises before anything is filled. -/
def backendMethods : List String :=
  ["linear", "time", "index", "values", "nearest", "zero", "slinear",
   "quadratic", "cubic", "barycentric", "polynomial", "krogh",
   "piecewise_polynomial", "pchip", "akima", "spline", "cubicspline",
   "from_derivatives"]

/-- The scipy `interp1d`-backed method names.  The `interp1d` constructor
demands at least two valid data points, so these methods raise
`ValueError("x and y arrays must have at least 2 entries")` whenever
exactly one valid value is present and there is a missing value to fill
(with no missing values, or none valid, pandas returns early and never
calls scipy).  The higher per-kind thresholds of `quadratic`/`cubic` and
the fills of methods outside `supportedMethods` are beyond this model;
no theorem below depends on them. -/
def scipyMethods : List String :=
  ["nearest", "zero", "slinear", "quadratic", "cubic"]

/-- Interpolation methods whose fill behaviour this embedding implements
faithfully (`linear` via numpy `interp` by position; `slinear`, `index`,
`values` by index value).  All claims about successful fills restrict to
these. -/
def supportedMethods : List String := ["linear", "slinear", "index", "values"]

/-- Number of non-missing entries of a frame. -/
def nValid (l : List (ℚ × Option ℚ)) : ℕ :=
  (l.filter (fun p => p.2.isSome)).length

/-- Position, label and value of the first non-missing entry of a frame
segment, if any. -/
def findNextValid : List (ℚ × Option ℚ) → Option (ℕ × ℚ × ℚ)
  | [] => none
  | (x, some v) :: _ => some (0, x, v)
  | (_, none) :: rest => (findNextValid rest).map (fun t => (t.1 + 1, t.2.1, t.2.2))

/-- Core of pandas `interpolate` (default `limit_direction='forward'`) for the
supported methods. `prev` carries position, label and value of the last valid
entry already passed; `pos` is the absolute position of the list head.
Method `linear` interpolates by position and propagates the last valid value
over trailing missing entries (numpy `interp` clipping); the index-based
methods (`slinear`, `index`, `values`) interpolate by label and leave leading
and trailing missing entries missing. -/
def interpGo (method : String) :
    Option (ℕ × ℚ × ℚ) → ℕ → List (ℚ × Option ℚ) → List (ℚ × Option ℚ)
  | _, _, [] => []
  | _, pos, (x, some v) :: rest =>
    (x, some v) :: interpGo method (some (pos, x, v)) (pos + 1) rest
  | prev, pos, (x, none) :: rest =>
    let filled : Option ℚ :=
      match prev, findNextValid rest with
      | some (j, xj, vj), some (k, xk, vk) =>
        if method = "linear" then
          some (vj + (vk - vj) * ((pos : ℚ) - (j : ℚ)) / (((pos + 1 + k : ℕ) : ℚ) - (j : ℚ)))
        else
          some (vj + (vk - vj) * (x - xj) / (xk - xj))
      | some (_, _, vj), none => if method = "linear" then some vj else none
      | none, _ => none
    (x, filled) :: interpGo method prev (pos + 1) rest

/-- Pandas `DataFrame.interpolate(method=method, order=order)`: validates the
method name against the backend whitelist, then fills missing values.  An
unknown method is an error surfaced to the caller.  Pandas skips the fill
entirely when no value is missing or no value is valid; otherwise the scipy
`interp1d`-backed methods raise when only one valid data point remains.
`order` only matters to spline/polynomial methods, whose fills are outside
the modelled subset `supportedMethods`. -/
def interpolateDF (method : String) (_order : ℕ) (l : List (ℚ × Option ℚ)) :
    Except String (List (ℚ × Option ℚ)) :=
  if method ∈ backendMethods then
    if method ∈ scipyMethods ∧ nValid l = 1 ∧ nValid l < l.length then
      .error "x and y arrays must have at least 2 entries"
    else .ok (interpGo method none 0 l)
  else .error ("method " ++ method ++ " not supported by the interpolation backend")

/-- Pandas `ffill`: each missing value takes the nearest earlier valid value
carried in `carry`. -/
def ffillAux (carry : Option ℚ) : List (ℚ × Option ℚ) → List (ℚ × Option ℚ)
  | [] => []
  | (x, some v) :: rest => (x, some v) :: ffillAux (some v) rest
  | (x, none) :: rest => (x, carry) :: ffillAux carry rest

/-- Pandas `bfill`: each missing value takes the nearest later valid value. -/
def bfillList : List (ℚ × Option ℚ) → List (ℚ × Option ℚ)
  | [] => []
  | (x, some v) :: rest => (x, some v) :: bfillList rest
  | (x, none) :: rest => (x, (findNextValid rest).map (fun t => t.2.2)) :: bfillList rest

/-- Round-half-to-even on rationals, the rounding mode of numpy/pandas
`round`. -/
def roundHalfEven (x : ℚ) : ℤ :=
  if x - ⌊x⌋ < 1/2 then ⌊x⌋
  else if 1/2 < x - ⌊x⌋ then ⌊x⌋ + 1
  else if ⌊x⌋ % 2 = 0 then ⌊x⌋ else ⌊x⌋ + 1

/-- Rounding one value to `DECIMAL_POINTS` decimals, pandas `round(4)`. -/
def roundTo4 (x : ℚ) : ℚ := ((roundHalfEven (x * precisionQ) : ℚ)) / precisionQ

/-- Pandas `df.round(DECIMAL_POINTS)`: missing values stay missing. -/
def roundDF (l : List (ℚ × Option ℚ)) : List (ℚ × Option ℚ) :=
  l.map (fun p => (p.1, p.2.map roundTo4))

/-- The grid filter predicate `index % int(step*precision) == 0`, with
python floor-mod semantics; a zero modulus (float NaN in the source
environment) keeps nothing. -/
def keepTick (x : ℚ) (m : ℤ) : Bool :=
  if m = 0 then false else decide (x - (m : ℚ) * ⌊x / (m : ℚ)⌋ = 0)

/-- Scaled integer times of the deduplicated sample set, the index the frame
carries right before reindexing. -/
def scaledTimes (samples : List (ℚ × ℚ)) : List ℤ :=
  (dedupLast samples).map (fun p => scaleTime p.1)

/-- The frame after dedup, scaling and `set_index`: association list from
scaled time (as an index value) to sample value. -/
def scaledDF (samples : List (ℚ × ℚ)) : List (ℚ × ℚ) :=
  (dedupLast samples).map (fun p => (((scaleTime p.1 : ℤ) : ℚ), p.2))

/-- The combined index `df.index.union(regular_ticks).drop_duplicates(keep='last')`. -/
def newIndexOf (samples : List (ℚ × ℚ)) (max_value step : ℚ) : List ℚ :=
  sortedUnion ((scaledDF samples).map Prod.fst) (regularTicks max_value step)

/-- Line 44 and 47 of the source: keep index positions that are exact
multiples of `int(step*precision)`, then rescale the index by `precision`. -/
def gridFilterScale (m : ℤ) (l : List (ℚ × Option ℚ)) : List (ℚ × Option ℚ) :=
  (l.filter (fun p => keepTick p.1 m)).map (fun p => (p.1 / precisionQ, p.2))

/-- The resampler `resample_dataframe(dataframe, max_value, step, method, order=1)`.
Stages appear in source order; the two failure points are pandas
`reindex` on a duplicate axis and an interpolation method the backend
rejects. -/
def resample_dataframe (samples : List (ℚ × ℚ)) (max_value step : ℚ)
    (method : String) (order : ℕ := 1) : Except String (List (ℚ × Option ℚ)) :=
  if ((scaledDF samples).map Prod.fst).Nodup then
    match interpolateDF method order
        (reindexDF (scaledDF samples) (newIndexOf samples max_value step)) with
    | .error e => .error e
    | .ok df1 =>
      .ok (gridFilterScale (ratTrunc (step * precisionQ)) (roundDF (bfillList (ffillAux none df1))))
  else .error "cannot reindex from a duplicate axis"

/-- Value of a resampled series at a tick: the first entry carrying that
index. -/
def seriesAt (l : List (ℚ × Option ℚ)) (t : ℚ) : Option (Option ℚ) :=
  (l.find? (fun p => decide (p.1 = t))).map Prod.snd

/-! Binary64 model of the time-scaling step.  The source frame holds
`time` as float64, so `df['time'].mul(precision)` is an IEEE-754 double
multiplication; `astype(int)` then truncates toward zero.  The model
rounds an exact rational to the nearest double (normal range, ties to
even), which is all the claims about concrete sample times need. -/

/-- Fuel-driven floor of log base 2 on naturals (`log2fuel n n` is exact
for every `n`). -/
def log2fuel : ℕ → ℕ → ℕ
  | 0, _ => 0
  | fuel + 1, n => if n ≤ 1 then 0 else log2fuel fuel (n / 2) + 1

/-- Fuel-driven ceiling of log base 2 on naturals. -/
def clog2fuel : ℕ → ℕ → ℕ
  | 0, _ => 0
  | fuel + 1, n => if n ≤ 1 then 0 else clog2fuel fuel ((n + 1) / 2) + 1

/-- Floor of log base 2 of a positive rational. -/
def floorLog2 (q : ℚ) : ℤ :=
  if q ≤ 0 then 0
  else if 1 ≤ q then (log2fuel ⌊q⌋.toNat ⌊q⌋.toNat : ℤ)
  else -(clog2fuel ⌈q⁻¹⌉.toNat ⌈q⁻¹⌉.toNat : ℤ)

/-- Rounding a positive rational to 53 significant binary digits, ties to
even: the binary64 significand rounding. -/
def roundSig (q : ℚ) : ℚ :=
  let e := floorLog2 q
  ((roundHalfEven (q * (2 : ℚ) ^ ((52 : ℤ) - e)) : ℚ)) * (2 : ℚ) ^ (e - (52 : ℤ))

/-- Nearest binary64 value of an exact rational (normal range). -/
def roundToDouble (q : ℚ) : ℚ :=
  if q = 0 then 0 else if 0 < q then roundSig q else -(roundSig (-q))

/-- IEEE-754 double multiplication of two already-representable values. -/
def floatMul (a b : ℚ) : ℚ := roundToDouble (a * b)

/-- The scaled integer index line 33 actually computes on float64 input:
the float product `time * 10**4` truncated toward zero. -/
def scaleTimeFloat (t : ℚ) : ℤ := ratTrunc (floatMul t precisionQ)

/-! Structural lemmas about the fill stages: they never change index labels,
they never change an already-valid value, and their behaviour on all-missing
and all-valid segments. -/

theorem interpGo_map_fst (method : String) :
    ∀ (prev : Option (ℕ × ℚ × ℚ)) (pos : ℕ) (l : List (ℚ × Option ℚ)),
      (interpGo method prev pos l).map Prod.fst = l.map Prod.fst := by
  intro prev pos l
  induction l generalizing prev pos with
  | nil => simp [interpGo]
  | cons p rest ih =>
    obtain ⟨x, v⟩ := p
    cases v with
    | none => simp [interpGo, ih]
    | some v => simp [interpGo, ih]

theorem ffillAux_map_fst :
    ∀ (carry : Option ℚ) (l : List (ℚ × Option ℚ)),
      (ffillAux carry l).map Prod.fst = l.map Prod.fst := by
  intro carry l
  induction l generalizing carry with
  | nil => simp [ffillAux]
  | cons p rest ih =>
    obtain ⟨x, v⟩ := p
    cases v with
    | none => simp [ffillAux, ih]
    | some v => simp [ffillAux, ih]

theorem bfillList_map_fst :
    ∀ l : List (ℚ × Option ℚ), (bfillList l).map Prod.fst = l.map Prod.fst := by
  intro l
  induction l with
  | nil => simp [bfillList]
  | cons p rest ih =>
    obtain ⟨x, v⟩ := p
    cases v with
    | none => simp [bfillList, ih]
    | some v => simp [bfillList, ih]

theorem roundDF_map_fst (l : List (ℚ × Option ℚ)) :
    (roundDF l).map Prod.fst = l.map Prod.fst := by
  simp [roundDF]

theorem mem_interpGo_of_some (method : String) (x v : ℚ) :
    ∀ (prev : Option (ℕ × ℚ × ℚ)) (pos : ℕ) (l : List (ℚ × Option ℚ)),
      (x, some v) ∈ l → (x, some v) ∈ interpGo method prev pos l := by
  intro prev pos l hmem
  induction l generalizing prev pos with
  | nil => cases hmem
  | cons p rest ih =>
    obtain ⟨y, w⟩ := p
    rcases List.mem_cons.mp hmem with heq | htail
    · cases heq
      simp [interpGo]
    · cases w with
      | none => exact List.mem_cons_of_mem _ (ih _ _ htail)
      | some w => exact List.mem_cons_of_mem _ (ih _ _ htail)

theorem mem_ffillAux_of_some (x v : ℚ) :
    ∀ (carry : Option ℚ) (l : List (ℚ × Option ℚ)),
      (x, some v) ∈ l → (x, some v) ∈ ffillAux carry l := by
  intro carry l hmem
  induction l generalizing carry with
  | nil => cases hmem
  | cons p rest ih =>
    obtain ⟨y, w⟩ := p
    rcases List.mem_cons.mp hmem with heq | htail
    · cases heq
      simp [ffillAux]
    · cases w with
      | none => exact List.mem_cons_of_mem _ (ih _ htail)
      | some w => exact List.mem_cons_of_mem _ (ih _ htail)

theorem mem_bfillList_of_some (x v : ℚ) :
    ∀ l : List (ℚ × Option ℚ), (x, some v) ∈ l → (x, some v) ∈ bfillList l := by
  intro l hmem
  induction l with
  | nil => cases hmem
  | cons p rest ih =>
    obtain ⟨y, w⟩ := p
    rcases List.mem_cons.mp hmem with heq | htail
    · cases heq
      simp [bfillList]
    · cases w with
      | none => exact List.mem_cons_of_mem _ (ih htail)
      | some w => exact List.mem_cons_of_mem _ (ih htail)

theorem findNextValid_eq_none :
    ∀ l : List (ℚ × Option ℚ), (∀ p ∈ l, p.2 = none) → findNextValid l = none := by
  intro l hl
  induction l with
  | nil => rfl
  | cons p rest ih =>
    obtain ⟨y, w⟩ := p
    have hw : w = none := hl (y, w) (List.mem_cons_self _ _)
    subst hw
    simp [findNextValid, ih (fun q hq => hl q (List.mem_cons_of_mem _ hq))]

theorem interpGo_all_none (method : String) :
    ∀ (pos : ℕ) (l : List (ℚ × Option ℚ)),
      (∀ p ∈ l, p.2 = none) → interpGo method none pos l = l := by
  intro pos l hl
  induction l generalizing pos with
  | nil => rfl
  | cons p rest ih =>
    obtain ⟨y, w⟩ := p
    have hw : w = none := hl (y, w) (List.mem_cons_self _ _)
    subst hw
    simp [interpGo, ih _ (fun q hq => hl q (List.mem_cons_of_mem _ hq))]

theorem ffillAux_all_none :
    ∀ l : List (ℚ × Option ℚ), (∀ p ∈ l, p.2 = none) → ffillAux none l = l := by
  intro l hl
  induction l with
  | nil => rfl
  | cons p rest ih =>
    obtain ⟨y, w⟩ := p
    have hw : w = none := hl (y, w) (List.mem_cons_self _ _)
    subst hw
    simp [ffillAux, ih (fun q hq => hl q (List.mem_cons_of_mem _ hq))]

theorem bfillList_all_none :
    ∀ l : List (ℚ × Option ℚ), (∀ p ∈ l, p.2 = none) → bfillList l = l := by
  intro l hl
  induction l with
  | nil => rfl
  | cons p rest ih =>
    obtain ⟨y, w⟩ := p
    have hw : w = none := hl (y, w) (List.mem_cons_self _ _)
    subst hw
    have hrest : ∀ q ∈ rest, q.2 = none := fun q hq => hl q (List.mem_cons_of_mem _ hq)
    simp [bfillList, findNextValid_eq_none rest hrest, ih hrest]

theorem interpGo_all_some (method : String) :
    ∀ (prev : Option (ℕ × ℚ × ℚ)) (pos : ℕ) (l : List (ℚ × Option ℚ)),
      (∀ p ∈ l, p.2.isSome) → interpGo method prev pos l = l := by
  intro prev pos l hl
  induction l generalizing prev pos with
  | nil => rfl
  | cons p rest ih =>
    obtain ⟨y, w⟩ := p
    cases w with
    | none => exact absurd (hl (y, none) (List.mem_cons_self _ _)) (by simp)
    | some w =>
      simp [interpGo, ih _ _ (fun q hq => hl q (List.mem_cons_of_mem _ hq))]

theorem ffillAux_all_some :
    ∀ (carry : Option ℚ) (l : List (ℚ × Option ℚ)),
      (∀ p ∈ l, p.2.isSome) → ffillAux carry l = l := by
  intro carry l hl
  induction l generalizing carry with
  | nil => rfl
  | cons p rest ih =>
    obtain ⟨y, w⟩ := p
    cases w with
    | none => exact absurd (hl (y, none) (List.mem_cons_self _ _)) (by simp)
    | some w =>
      simp [ffillAux, ih _ (fun q hq => hl q (List.mem_cons_of_mem _ hq))]

theorem bfillList_all_some :
    ∀ l : List (ℚ × Option ℚ), (∀ p ∈ l, p.2.isSome) → bfillList l = l := by
  intro l hl
  induction l with
  | nil => rfl
  | cons p rest ih =>
    obtain ⟨y, w⟩ := p
    cases w with
    | none => exact absurd (hl (y, none) (List.mem_cons_self _ _)) (by simp)
    | some w =>
      simp [bfillList, ih (fun q hq => hl q (List.mem_cons_of_mem _ hq))]

/-! Segment lemmas: behaviour of the fill stages on a frame decomposed
around a valid entry, with an all-missing segment on one side. -/

theorem findNextValid_append (t0 v0 : ℚ) (C : List (ℚ × Option ℚ)) :
    ∀ A : List (ℚ × Option ℚ), (∀ p ∈ A, p.2 = none) →
      findNextValid (A ++ (t0, some v0) :: C) = some (A.length, t0, v0) := by
  intro A hA
  induction A with
  | nil => rfl
  | cons p rest ih =>
    obtain ⟨y, w⟩ := p
    have hw : w = none := hA (y, w) (List.mem_cons_self _ _)
    subst hw
    simp [findNextValid, ih (fun q hq => hA q (List.mem_cons_of_mem _ hq))]

theorem interpGo_cons_none (method : String) (prev : Option (ℕ × ℚ × ℚ)) (pos : ℕ)
    (x : ℚ) (L : List (ℚ × Option ℚ)) :
    ∃ w, interpGo method prev pos ((x, none) :: L) =
      (x, w) :: interpGo method prev (pos + 1) L :=
  ⟨_, rfl⟩

theorem bfillList_cons_none (x : ℚ) (L : List (ℚ × Option ℚ)) :
    ∃ w, bfillList ((x, none) :: L) = (x, w) :: bfillList L :=
  ⟨_, rfl⟩

theorem interpGo_leading (method : String) (t0 v0 : ℚ) (B : List (ℚ × Option ℚ)) :
    ∀ (A : List (ℚ × Option ℚ)) (pos : ℕ), (∀ p ∈ A, p.2 = none) →
      interpGo method none pos (A ++ (t0, some v0) :: B) =
        A ++ (t0, some v0) ::
          interpGo method (some (pos + A.length, t0, v0)) (pos + A.length + 1) B := by
  intro A
  induction A with
  | nil => intro pos _; simp [interpGo]
  | cons p rest ih =>
    intro pos hA
    obtain ⟨y, w⟩ := p
    have hw : w = none := hA (y, w) (List.mem_cons_self _ _)
    subst hw
    have hih := ih (pos + 1) (fun q hq => hA q (List.mem_cons_of_mem _ hq))
    have h1 : pos + 1 + rest.length = pos + (rest.length + 1) := by omega
    rw [h1] at hih
    simp only [List.cons_append, interpGo, List.length_cons]
    exact congrArg _ hih

theorem interpGo_trailing (method : String) (j : ℕ) (xj vj : ℚ) :
    ∀ (E : List (ℚ × Option ℚ)) (pos : ℕ), (∀ p ∈ E, p.2 = none) →
      interpGo method (some (j, xj, vj)) pos E =
        E.map (fun p => (p.1, if method = "linear" then some vj else none)) := by
  intro E
  induction E with
  | nil => intro pos _; rfl
  | cons p rest ih =>
    intro pos hE
    obtain ⟨y, w⟩ := p
    have hw : w = none := hE (y, w) (List.mem_cons_self _ _)
    subst hw
    have hrest : ∀ q ∈ rest, q.2 = none := fun q hq => hE q (List.mem_cons_of_mem _ hq)
    simp [interpGo, findNextValid_eq_none rest hrest, ih (pos + 1) hrest]

theorem interpGo_split (method : String) (tl vl : ℚ) (rest : List (ℚ × Option ℚ)) :
    ∀ (D : List (ℚ × Option ℚ)) (prev : Option (ℕ × ℚ × ℚ)) (pos : ℕ),
      ∃ D' : List (ℚ × Option ℚ), D'.map Prod.fst = D.map Prod.fst ∧
        interpGo method prev pos (D ++ (tl, some vl) :: rest) =
          D' ++ (tl, some vl) ::
            interpGo method (some (pos + D.length, tl, vl)) (pos + D.length + 1) rest := by
  intro D
  induction D with
  | nil =>
    intro prev pos
    exact ⟨[], rfl, by simp [interpGo]⟩
  | cons p D ih =>
    intro prev pos
    obtain ⟨y, w⟩ := p
    cases w with
    | some w =>
      obtain ⟨D', hfst, heq⟩ := ih (some (pos, y, w)) (pos + 1)
      have h1 : pos + 1 + D.length = pos + (D.length + 1) := by omega
      rw [h1] at heq
      refine ⟨(y, some w) :: D', by simp [hfst], ?_⟩
      simp only [List.cons_append, interpGo, List.length_cons]
      exact congrArg _ heq
    | none =>
      obtain ⟨D', hfst, heq⟩ := ih prev (pos + 1)
      have h1 : pos + 1 + D.length = pos + (D.length + 1) := by omega
      rw [h1] at heq
      obtain ⟨w, hw⟩ := interpGo_cons_none method prev pos y (D ++ (tl, some vl) :: rest)
      refine ⟨(y, w) :: D', by simp [hfst], ?_⟩
      rw [List.cons_append, hw, heq, List.length_cons, List.cons_append]

theorem ffillAux_split (tl vl : ℚ) (E : List (ℚ × Option ℚ)) :
    ∀ (D : List (ℚ × Option ℚ)) (carry : Option ℚ),
      ffillAux carry (D ++ (tl, some vl) :: E) =
        ffillAux carry D ++ (tl, some vl) :: ffillAux (some vl) E := by
  intro D
  induction D with
  | nil => intro carry; simp [ffillAux]
  | cons p rest ih =>
    intro carry
    obtain ⟨y, w⟩ := p
    cases w with
    | some w => simp [ffillAux, ih]
    | none => simp [ffillAux, ih]

theorem ffillAux_const (v : ℚ) :
    ∀ E : List (ℚ × Option ℚ), (∀ p ∈ E, p.2 = none ∨ p.2 = some v) →
      ffillAux (some v) E = E.map (fun p => (p.1, some v)) := by
  intro E hE
  induction E with
  | nil => rfl
  | cons p rest ih =>
    obtain ⟨y, w⟩ := p
    have hrest : ∀ q ∈ rest, q.2 = none ∨ q.2 = some v :=
      fun q hq => hE q (List.mem_cons_of_mem _ hq)
    rcases hE (y, w) (List.mem_cons_self _ _) with hw | hw <;>
      simp only at hw <;> subst hw <;> simp [ffillAux, ih hrest]

theorem bfillList_leading (t0 v0 : ℚ) (C : List (ℚ × Option ℚ)) :
    ∀ A : List (ℚ × Option ℚ), (∀ p ∈ A, p.2 = none) →
      bfillList (A ++ (t0, some v0) :: C) =
        A.map (fun p => (p.1, some v0)) ++ (t0, some v0) :: bfillList C := by
  intro A hA
  induction A with
  | nil => simp [bfillList]
  | cons p rest ih =>
    obtain ⟨y, w⟩ := p
    have hw : w = none := hA (y, w) (List.mem_cons_self _ _)
    subst hw
    have hrest : ∀ q ∈ rest, q.2 = none := fun q hq => hA q (List.mem_cons_of_mem _ hq)
    simp [bfillList, findNextValid_append t0 v0 C rest hrest, ih hrest]

theorem mem_sortedUnion {x : ℚ} {a b : List ℚ} :
    x ∈ sortedUnion a b ↔ x ∈ a ∨ x ∈ b := by
  unfold sortedUnion
  rw [List.mem_dedup, (List.perm_insertionSort _ _).mem_iff, List.mem_append]

theorem sortedUnion_sorted (a b : List ℚ) : (sortedUnion a b).Sorted (· < ·) := by
  have hle : (List.insertionSort (· ≤ ·) (a ++ b)).Sorted (· ≤ ·) :=
    List.sorted_insertionSort _ _
  have hsub : (sortedUnion a b).Sorted (· ≤ ·) :=
    List.Pairwise.sublist (List.dedup_sublist _) hle
  exact hsub.lt_of_le (List.nodup_dedup _)

theorem sorted_lt_eq_of_mem_iff {l₁ l₂ : List ℚ} (h₁ : l₁.Sorted (· < ·))
    (h₂ : l₂.Sorted (· < ·)) (hmem : ∀ x, x ∈ l₁ ↔ x ∈ l₂) : l₁ = l₂ := by
  haveI : IsAntisymm ℚ (· < ·) := ⟨fun _ _ hab hba => absurd hab (asymm hba)⟩
  exact List.eq_of_perm_of_sorted
    ((List.perm_ext_iff_of_nodup h₁.nodup h₂.nodup).mpr hmem) h₁ h₂

theorem sorted_split {l : List ℚ} {t0 : ℚ} (hs : l.Sorted (· < ·)) (hmem : t0 ∈ l) :
    ∃ P Q, l = P ++ t0 :: Q ∧ (∀ x ∈ P, x < t0) ∧ (∀ x ∈ Q, t0 < x) := by
  obtain ⟨P, Q, rfl⟩ := List.append_of_mem hmem
  refine ⟨P, Q, rfl, ?_, ?_⟩
  · intro x hx
    have := (List.pairwise_append.mp hs).2.2 x hx t0 (List.mem_cons_self _ _)
    exact this
  · intro x hx
    exact List.rel_of_sorted_cons (List.pairwise_append.mp hs).2.1 x hx

theorem bfillList_append :
    ∀ (X Y : List (ℚ × Option ℚ)), ∃ X' : List (ℚ × Option ℚ),
      X'.map Prod.fst = X.map Prod.fst ∧ bfillList (X ++ Y) = X' ++ bfillList Y := by
  intro X Y
  induction X with
  | nil => exact ⟨[], rfl, rfl⟩
  | cons p rest ih =>
    obtain ⟨X', hfst, heq⟩ := ih
    obtain ⟨y, w⟩ := p
    cases w with
    | some w =>
      exact ⟨(y, some w) :: X', by simp [hfst], by simp [bfillList, heq]⟩
    | none =>
      obtain ⟨w, hw⟩ := bfillList_cons_none y (rest ++ Y)
      exact ⟨(y, w) :: X', by simp [hfst], by rw [List.cons_append, hw, heq, List.cons_append]⟩

/-! Lemmas about scaling, lookup, the grid and rounding. -/

theorem ratTrunc_intCast (a : ℤ) : ratTrunc ((a : ℚ)) = a := by
  unfold ratTrunc
  split
  · exact Int.floor_intCast a
  · rw [← Int.cast_neg, Int.floor_intCast]
    omega

theorem scaleTime_eq {t : ℚ} {a : ℤ} (h : t * precisionQ = (a : ℚ)) : scaleTime t = a := by
  unfold scaleTime
  rw [h, ratTrunc_intCast]

theorem dedupLast_eq_self : ∀ l : List (ℚ × ℚ), (l.map Prod.fst).Nodup → dedupLast l = l := by
  intro l hl
  induction l with
  | nil => rfl
  | cons p rest ih =>
    have hkey : p.1 ∉ rest.map Prod.fst := by
      intro hc
      exact (List.nodup_cons.mp (by simpa using hl)).1 hc
    have hcond : rest.any (fun y => decide (y.1 = p.1)) = false := by
      rw [List.any_eq_false]
      intro q hq
      simp only [decide_eq_true_eq]
      intro hqp
      exact hkey (hqp ▸ List.mem_map_of_mem Prod.fst hq)
    obtain ⟨x, v⟩ := p
    simp only [dedupLast, hcond, Bool.false_eq_true, if_false]
    rw [ih (List.nodup_cons.mp (by simpa using hl)).2]

theorem find?_key_of_mem {β : Type} :
    ∀ {l : List (ℚ × β)} {k : ℚ} {w : β}, (l.map Prod.fst).Nodup → (k, w) ∈ l →
      l.find? (fun p => decide (p.1 = k)) = some (k, w) := by
  intro l
  induction l with
  | nil => intro k w _ h; cases h
  | cons p rest ih =>
    intro k w hnd hmem
    obtain ⟨a, b⟩ := p
    by_cases hak : a = k
    · subst hak
      rcases List.mem_cons.mp hmem with heq | htail
      · cases heq
        exact List.find?_cons_of_pos _ (by simp)
      · exact absurd (List.mem_map_of_mem Prod.fst htail)
          (List.nodup_cons.mp (by simpa using hnd)).1
    · have htail : (k, w) ∈ rest := by
        rcases List.mem_cons.mp hmem with heq | htail
        · cases heq; exact absurd rfl hak
        · exact htail
      rw [List.find?_cons_of_neg _ (by simp [hak])]
      exact ih (List.nodup_cons.mp (by simpa using hnd)).2 htail

theorem find?_key_of_not_mem {β : Type} {l : List (ℚ × β)} {k : ℚ}
    (h : k ∉ l.map Prod.fst) : l.find? (fun p => decide (p.1 = k)) = none := by
  rw [List.find?_eq_none]
  intro p hp
  simp only [decide_eq_true_eq]
  intro hpk
  exact h (hpk ▸ List.mem_map_of_mem Prod.fst hp)

theorem seriesAt_of_mem {l : List (ℚ × Option ℚ)} {k : ℚ} {w : Option ℚ}
    (hnd : (l.map Prod.fst).Nodup) (h : (k, w) ∈ l) : seriesAt l k = some w := by
  unfold seriesAt
  rw [find?_key_of_mem hnd h]
  rfl

theorem reindexDF_append (scaled : List (ℚ × ℚ)) (P Q : List ℚ) :
    reindexDF scaled (P ++ Q) = reindexDF scaled P ++ reindexDF scaled Q :=
  List.map_append _ _ _

theorem reindexDF_cons (scaled : List (ℚ × ℚ)) (i : ℚ) (Q : List ℚ) :
    reindexDF scaled (i :: Q) =
      (i, (scaled.find? (fun p => decide (p.1 = i))).map Prod.snd) :: reindexDF scaled Q :=
  rfl

theorem reindexDF_map_fst (scaled : List (ℚ × ℚ)) (idx : List ℚ) :
    (reindexDF scaled idx).map Prod.fst = idx := by
  simp only [reindexDF, List.map_map]
  exact List.map_congr_left (fun a _ => rfl) |>.trans (List.map_id _)

theorem reindexDF_all_none {scaled : List (ℚ × ℚ)} {P : List ℚ}
    (h : ∀ i ∈ P, i ∉ scaled.map Prod.fst) :
    ∀ p ∈ reindexDF scaled P, p.2 = none := by
  intro p hp
  obtain ⟨i, hi, rfl⟩ := List.mem_map.mp hp
  simp [find?_key_of_not_mem (h i hi)]

theorem reindexDF_entry_of_mem {scaled : List (ℚ × ℚ)} {idx : List ℚ} {i v : ℚ}
    (hnd : (scaled.map Prod.fst).Nodup) (hmem : (i, v) ∈ scaled) (hidx : i ∈ idx) :
    (i, some v) ∈ reindexDF scaled idx := by
  have : (i, (scaled.find? (fun p => decide (p.1 = i))).map Prod.snd) ∈ reindexDF scaled idx :=
    List.mem_map_of_mem _ hidx
  rwa [find?_key_of_mem hnd hmem] at this

theorem mem_roundDF_of_mem {l : List (ℚ × Option ℚ)} {x v : ℚ}
    (h : (x, some v) ∈ l) : (x, some (roundTo4 v)) ∈ roundDF l := by
  have := List.mem_map_of_mem (fun p : ℚ × Option ℚ => (p.1, p.2.map roundTo4)) h
  simpa [roundDF] using this

theorem mem_gridFilterScale {m : ℤ} {l : List (ℚ × Option ℚ)} {x : ℚ} {w : Option ℚ}
    (hmem : (x, w) ∈ l) (hkeep : keepTick x m = true) :
    (x / precisionQ, w) ∈ gridFilterScale m l := by
  unfold gridFilterScale
  exact List.mem_map_of_mem _ (List.mem_filter.mpr ⟨hmem, hkeep⟩)

theorem gridFilterScale_map_fst (m : ℤ) :
    ∀ l : List (ℚ × Option ℚ), (gridFilterScale m l).map Prod.fst =
      ((l.map Prod.fst).filter (fun x => keepTick x m)).map (fun x => x / precisionQ) := by
  intro l
  induction l with
  | nil => rfl
  | cons p rest ih =>
    obtain ⟨x, w⟩ := p
    by_cases hk : keepTick x m = true
    · simp only [gridFilterScale, List.filter_cons, hk, if_true, List.map_cons]
      exact congrArg _ ih
    · simp only [gridFilterScale, List.filter_cons, hk, if_false, List.map_cons]
      simpa [gridFilterScale, Bool.not_eq_true] using ih

theorem keepTick_intCast {a m : ℤ} (hm : 0 < m) :
    keepTick ((a : ℚ)) m = true ↔ m ∣ a := by
  unfold keepTick
  rw [if_neg (by omega : ¬ m = 0)]
  have hmn : ((m.toNat : ℕ) : ℤ) = m := Int.toNat_of_nonneg hm.le
  have hfl : ⌊(a : ℚ) / (m : ℚ)⌋ = a / m := by
    have h1 : ((m : ℤ) : ℚ) = ((m.toNat : ℕ) : ℚ) := by
      exact_mod_cast congrArg (fun z : ℤ => (z : ℚ)) hmn.symm
    rw [h1, Rat.floor_intCast_div_natCast a m.toNat, hmn]
  rw [hfl, decide_eq_true_iff]
  have hcast : (a : ℚ) - (m : ℚ) * ((a / m : ℤ) : ℚ) = ((a - m * (a / m) : ℤ) : ℚ) := by
    push_cast
    ring
  rw [hcast]
  rw [show a - m * (a / m) = a % m from by rw [Int.emod_def]]
  constructor
  · intro h
    have : a % m = 0 := by exact_mod_cast h
    exact Int.dvd_of_emod_eq_zero this
  · intro h
    have : a % m = 0 := Int.emod_eq_zero_of_dvd h
    exact_mod_cast this

theorem keepTick_mul (k m : ℤ) (hm : 0 < m) :
    keepTick (((k * m : ℤ) : ℚ)) m = true :=
  (keepTick_intCast hm).mpr ⟨k, mul_comm k m⟩

theorem mem_regularTicks {max_value step x : ℚ} :
    x ∈ regularTicks max_value step ↔
      ∃ k : ℕ, k < ⌈max_value / step⌉.toNat ∧ x = (k : ℚ) * (step * precisionQ) := by
  unfold regularTicks
  rw [List.mem_map]
  constructor
  · rintro ⟨k, hk, rfl⟩
    exact ⟨k, List.mem_range.mp hk, rfl⟩
  · rintro ⟨k, hk, rfl⟩
    exact ⟨k, List.mem_range.mpr hk, rfl⟩

theorem regularTicks_sorted {max_value step : ℚ} {m : ℤ} (hm : 1 ≤ m)
    (hstep : step * precisionQ = (m : ℚ)) :
    (regularTicks max_value step).Sorted (· < ·) := by
  unfold regularTicks
  refine List.pairwise_map.mpr ?_
  refine (List.pairwise_lt_range _).imp ?_
  intro a b hab
  rw [hstep]
  have hmpos : (0 : ℚ) < (m : ℚ) := by exact_mod_cast (by omega : (0:ℤ) < m)
  exact mul_lt_mul_of_pos_right (by exact_mod_cast hab) hmpos

theorem roundHalfEven_sub_le (x : ℚ) : |((roundHalfEven x : ℤ) : ℚ) - x| ≤ 1/2 := by
  unfold roundHalfEven
  have h0 : ((⌊x⌋ : ℤ) : ℚ) ≤ x := Int.floor_le x
  have h1 : x < ((⌊x⌋ : ℤ) : ℚ) + 1 := Int.lt_floor_add_one x
  split_ifs with hlt hgt heven
  · rw [abs_le]
    constructor <;> linarith
  · push_cast
    rw [abs_le]
    constructor <;> linarith
  · rw [abs_le]
    constructor <;> linarith
  · push_cast
    rw [abs_le]
    constructor <;> linarith

theorem fill_map_fst (method : String) (l : List (ℚ × Option ℚ)) :
    (roundDF (bfillList (ffillAux none (interpGo method none 0 l)))).map Prod.fst =
      l.map Prod.fst := by
  rw [roundDF_map_fst, bfillList_map_fst, ffillAux_map_fst, interpGo_map_fst]

theorem fillStages_single (method : String) (s v : ℚ)
    (A B : List (ℚ × Option ℚ)) (hA : ∀ p ∈ A, p.2 = none) (hB : ∀ p ∈ B, p.2 = none) :
    bfillList (ffillAux none (interpGo method none 0 (A ++ (s, some v) :: B))) =
      (A ++ (s, some v) :: B).map (fun p => (p.1, some v)) := by
  have hmix : ∀ p ∈ B.map (fun p : ℚ × Option ℚ =>
      (p.1, if method = "linear" then some v else none)), p.2 = none ∨ p.2 = some v := by
    intro p hp
    obtain ⟨q, _, rfl⟩ := List.mem_map.mp hp
    by_cases hm : method = "linear" <;> simp [hm]
  rw [interpGo_leading method s v B A 0 hA,
    interpGo_trailing method _ s v B _ hB,
    ffillAux_split, ffillAux_all_none A hA,
    ffillAux_const v _ hmix,
    List.map_map]
  have hcomp : ((fun p : ℚ × Option ℚ => (p.1, some v)) ∘
      (fun p : ℚ × Option ℚ => (p.1, if method = "linear" then some v else none))) =
      (fun p : ℚ × Option ℚ => (p.1, some v)) := by
    funext p
    rfl
  rw [hcomp, bfillList_leading s v _ A hA,
    bfillList_all_some _ (by intro p hp; obtain ⟨q, _, rfl⟩ := List.mem_map.mp hp; rfl),
    List.map_append]
  rfl

theorem fill_leading (method : String) (t0 v0 : ℚ) (rest : List (ℚ × Option ℚ))
    (A : List (ℚ × Option ℚ)) (hA : ∀ p ∈ A, p.2 = none) :
    ∃ C, bfillList (ffillAux none (interpGo method none 0 (A ++ (t0, some v0) :: rest))) =
      A.map (fun p => (p.1, some v0)) ++ (t0, some v0) :: C := by
  rw [interpGo_leading method t0 v0 rest A 0 hA,
    ffillAux_split, ffillAux_all_none A hA,
    bfillList_leading t0 v0 _ A hA]
  exact ⟨_, rfl⟩

theorem fill_trailing (method : String) (tl vl : ℚ) (D E : List (ℚ × Option ℚ))
    (hE : ∀ p ∈ E, p.2 = none) :
    ∃ C, bfillList (ffillAux none (interpGo method none 0 (D ++ (tl, some vl) :: E))) =
      C ++ (tl, some vl) :: E.map (fun p => (p.1, some vl)) := by
  have hmix : ∀ p ∈ E.map (fun p : ℚ × Option ℚ =>
      (p.1, if method = "linear" then some vl else none)), p.2 = none ∨ p.2 = some vl := by
    intro p hp
    obtain ⟨q, _, rfl⟩ := List.mem_map.mp hp
    by_cases hm : method = "linear" <;> simp [hm]
  obtain ⟨D', _, heq⟩ := interpGo_split method tl vl E D none 0
  rw [heq, interpGo_trailing method _ tl vl E _ hE,
    ffillAux_split, ffillAux_const vl _ hmix, List.map_map]
  have hcomp : ((fun p : ℚ × Option ℚ => (p.1, some vl)) ∘
      (fun p : ℚ × Option ℚ => (p.1, if method = "linear" then some vl else none))) =
      (fun p : ℚ × Option ℚ => (p.1, some vl)) := by
    funext p
    rfl
  rw [hcomp]
  obtain ⟨X', _, hbe⟩ := bfillList_append (ffillAux none D')
    ((tl, some vl) :: E.map (fun p => (p.1, some vl)))
  rw [hbe]
  have : bfillList ((tl, some vl) :: E.map (fun p => (p.1, some vl))) =
      (tl, some vl) :: E.map (fun p => (p.1, some vl)) :=
    bfillList_all_some _ (by
      intro p hp
      rcases List.mem_cons.mp hp with rfl | hp'
      · rfl
      · obtain ⟨q, _, rfl⟩ := List.mem_map.mp hp'
        rfl)
  rw [this]
  exact ⟨X', rfl⟩

theorem gridFilterScale_keys_nodup {m : ℤ} {l : List (ℚ × Option ℚ)}
    (h : (l.map Prod.fst).Nodup) : ((gridFilterScale m l).map Prod.fst).Nodup := by
  rw [gridFilterScale_map_fst]
  refine List.Nodup.map ?_ (h.filter _)
  intro a b hab
  have hp : precisionQ ≠ 0 := by norm_num [precisionQ, DECIMAL_POINTS]
  field_simp at hab
  exact hab

theorem scaledDF_map_fst (samples : List (ℚ × ℚ)) :
    (scaledDF samples).map Prod.fst = (scaledTimes samples).map (fun i : ℤ => (i : ℚ)) := by
  simp only [scaledDF, scaledTimes, List.map_map]
  rfl

theorem linear_not_mem_scipy : ("linear" ∈ scipyMethods) = False := by
  simp [scipyMethods]

theorem slinear_mem_scipy : ("slinear" ∈ scipyMethods) = True := by
  simp [scipyMethods]

theorem supported_mem_backend {method : String} (h : method ∈ supportedMethods) :
    method ∈ backendMethods := by
  simp only [supportedMethods, List.mem_cons, List.not_mem_nil, or_false] at h
  rcases h with rfl | rfl | rfl | rfl <;> simp [backendMethods]

theorem nValid_all_none {l : List (ℚ × Option ℚ)} (h : ∀ p ∈ l, p.2 = none) :
    nValid l = 0 := by
  unfold nValid
  rw [List.filter_eq_nil.mpr (fun p hp => by simp [h p hp]), List.length_nil]

theorem nValid_all_some {l : List (ℚ × Option ℚ)} (h : ∀ p ∈ l, p.2.isSome) :
    nValid l = l.length := by
  unfold nValid
  rw [List.filter_eq_self.mpr (fun p hp => h p hp)]

theorem two_le_length_of_two_mem {α : Type} {l : List α} {a b : α}
    (ha : a ∈ l) (hb : b ∈ l) (hab : a ≠ b) : 2 ≤ l.length := by
  rcases l with _ | ⟨x, _ | ⟨y, t⟩⟩
  · cases ha
  · simp only [List.mem_singleton] at ha hb
    exact absurd (ha.trans hb.symm) hab
  · simp only [List.length_cons]
    omega

theorem nValid_reindexDF {scaled : List (ℚ × ℚ)} {idx : List ℚ}
    (hnd : (scaled.map Prod.fst).Nodup) (hidxnd : idx.Nodup)
    (hsub : ∀ k ∈ scaled.map Prod.fst, k ∈ idx) :
    nValid (reindexDF scaled idx) = scaled.length := by
  have hpt : ∀ i : ℚ, ((scaled.find? (fun p => decide (p.1 = i))).map Prod.snd).isSome =
      decide (i ∈ scaled.map Prod.fst) := by
    intro i
    by_cases hm : i ∈ scaled.map Prod.fst
    · obtain ⟨p, hp, hpi⟩ := List.mem_map.mp hm
      have hpair : (i, p.2) ∈ scaled := by
        have : p = (i, p.2) := by
          obtain ⟨a, b⟩ := p
          simp only at hpi
          rw [hpi]
        rwa [this] at hp
      rw [find?_key_of_mem hnd hpair]
      simp [hm]
    · rw [find?_key_of_not_mem hm]
      simp [hm]
  have h2 : ∀ rest : List ℚ,
      (List.filter (fun p => p.2.isSome)
        (rest.map (fun i => (i, (scaled.find? (fun p => decide (p.1 = i))).map Prod.snd)))).length =
      (rest.filter (fun i => decide (i ∈ scaled.map Prod.fst))).length := by
    intro rest
    induction rest with
    | nil => rfl
    | cons i rest ih =>
      simp only [List.map_cons, List.filter_cons]
      by_cases hm : i ∈ scaled.map Prod.fst <;> simp [hpt i, hm, ih]
  unfold nValid reindexDF
  rw [h2 idx]
  have hperm : List.Perm (idx.filter (fun i => decide (i ∈ scaled.map Prod.fst)))
      (scaled.map Prod.fst) := by
    rw [List.perm_ext_iff_of_nodup (hidxnd.filter _) hnd]
    intro x
    rw [List.mem_filter]
    constructor
    · rintro ⟨_, hx⟩
      exact of_decide_eq_true hx
    · intro hx
      exact ⟨hsub x hx, decide_eq_true hx⟩
  rw [hperm.length_eq, List.length_map]

theorem newIndexOf_nodup (samples : List (ℚ × ℚ)) (max_value step : ℚ) :
    (newIndexOf samples max_value step).Nodup := by
  unfold newIndexOf
  exact (sortedUnion_sorted _ _).nodup

theorem scaled_mem_newIndexOf {samples : List (ℚ × ℚ)} {max_value step : ℚ} {k : ℚ}
    (hk : k ∈ (scaledDF samples).map Prod.fst) : k ∈ newIndexOf samples max_value step := by
  unfold newIndexOf
  rw [mem_sortedUnion]
  exact Or.inl hk

/-- Interpolation does not raise scipy's minimum-two-points error when the
method is outside the `interp1d` family, or when at least two deduplicated
samples are present. -/
theorem resample_no_scipy_error {samples : List (ℚ × ℚ)} {max_value step : ℚ}
    {method : String} (hnd : ((scaledDF samples).map Prod.fst).Nodup)
    (hsc : method ∈ scipyMethods → 2 ≤ (dedupLast samples).length) :
    ¬ (method ∈ scipyMethods ∧
      nValid (reindexDF (scaledDF samples) (newIndexOf samples max_value step)) = 1 ∧
      nValid (reindexDF (scaledDF samples) (newIndexOf samples max_value step)) <
        (reindexDF (scaledDF samples) (newIndexOf samples max_value step)).length) := by
  rintro ⟨hs, h1, _⟩
  have hnv : nValid (reindexDF (scaledDF samples) (newIndexOf samples max_value step)) =
      (scaledDF samples).length :=
    nValid_reindexDF hnd (newIndexOf_nodup samples max_value step)
      (fun k hk => scaled_mem_newIndexOf hk)
  have h2 := hsc hs
  rw [hnv] at h1
  unfold scaledDF at h1
  rw [List.length_map] at h1
  omega

theorem resample_eq_ok {samples : List (ℚ × ℚ)} {max_value step : ℚ} {method : String}
    {order : ℕ} (hnd : ((scaledDF samples).map Prod.fst).Nodup)
    (hmeth : method ∈ backendMethods)
    (hok : ¬ (method ∈ scipyMethods ∧
      nValid (reindexDF (scaledDF samples) (newIndexOf samples max_value step)) = 1 ∧
      nValid (reindexDF (scaledDF samples) (newIndexOf samples max_value step)) <
        (reindexDF (scaledDF samples) (newIndexOf samples max_value step)).length)) :
    resample_dataframe samples max_value step method order =
      .ok (gridFilterScale (ratTrunc (step * precisionQ))
        (roundDF (bfillList (ffillAux none (interpGo method none 0
          (reindexDF (scaledDF samples) (newIndexOf samples max_value step))))))) := by
  unfold resample_dataframe
  rw [if_pos hnd]
  unfold interpolateDF
  rw [if_pos hmeth, if_neg hok]

theorem roundTo4_sub_le (x : ℚ) : |roundTo4 x - x| ≤ 1 / precisionQ := by
  have hp : (0 : ℚ) < precisionQ := by norm_num [precisionQ, DECIMAL_POINTS]
  have h := roundHalfEven_sub_le (x * precisionQ)
  have hrw : roundTo4 x - x =
      (((roundHalfEven (x * precisionQ) : ℤ) : ℚ) - x * precisionQ) / precisionQ := by
    unfold roundTo4
    field_simp
    ring
  rw [hrw, abs_div, abs_of_pos hp, div_le_div_iff_of_pos_right hp]
  linarith

theorem dedupLast_dup_eq :
    ∀ (l1 l2 l3 : List (ℚ × ℚ)) (t v w : ℚ),
      dedupLast (l1 ++ (t, v) :: (l2 ++ (t, w) :: l3)) =
        dedupLast (l1 ++ (l2 ++ (t, w) :: l3)) := by
  intro l1
  induction l1 with
  | nil =>
    intro l2 l3 t v w
    have hany : ((l2 ++ (t, w) :: l3).any (fun y => decide (y.1 = (t : ℚ)))) = true := by
      rw [List.any_eq_true]
      exact ⟨(t, w), by simp, by simp⟩
    simp only [List.nil_append, dedupLast, hany, if_true]
  | cons a l1 ih =>
    intro l2 l3 t v w
    simp only [List.cons_append, dedupLast, List.append_eq]
    have hcond : ((l1 ++ (t, v) :: (l2 ++ (t, w) :: l3)).any (fun y => decide (y.1 = a.1))) =
        ((l1 ++ (l2 ++ (t, w) :: l3)).any (fun y => decide (y.1 = a.1))) := by
      simp only [List.any_append, List.any_cons]
      cases hd : decide ((t : ℚ) = a.1) <;> simp [hd]
    rw [hcond, ih]

theorem resample_congr_dedup {l₁ l₂ : List (ℚ × ℚ)} (h : dedupLast l₁ = dedupLast l₂)
    (max_value step : ℚ) (method : String) (order : ℕ) :
    resample_dataframe l₁ max_value step method order =
      resample_dataframe l₂ max_value step method order := by
  unfold resample_dataframe newIndexOf scaledDF
  rw [h]

/-! The claims. -/

set_option maxRecDepth 100000

/-- C3: for samples {(0,0), (2,2)} with max_value 4, step 1 and the linear
interpolation method, the resampler succeeds and the value of the series at
tick 1 is exactly 1, the linear midpoint; missing interior ticks are filled
by the interpolation stage along the combined time-ordered index. -/
theorem C3_interior_interpolation :
    ∃ out, resample_dataframe [((0 : ℚ), 0), ((2 : ℚ), 2)] 4 1 "linear" 1 = .ok out ∧
      seriesAt out 1 = some (some 1) := by
  refine ⟨[((0 : ℚ), some 0), (1, some 1), (2, some 2), (3, some 2)], ?_, ?_⟩
  · norm_num [resample_dataframe, scaledDF, dedupLast, scaleTime, ratTrunc, precisionQ,
      DECIMAL_POINTS, newIndexOf, regularTicks, sortedUnion, List.insertionSort,
      List.orderedInsert, List.dedup, reindexDF, interpolateDF, supportedMethods, backendMethods, linear_not_mem_scipy, slinear_mem_scipy, nValid, interpGo,
      findNextValid, ffillAux, bfillList, roundDF, roundHalfEven, roundTo4, keepTick,
      gridFilterScale, List.filter]
  · norm_num [seriesAt, List.find?]

/-- C1 counterexample: with the single sample (2, 5), max_value = 1,
step = 1 and the linear method, the output tick set is {0, 2}, which
contains the tick 2 at or beyond max_value = 1: the output tick set is not
the grid {0, step, ..., k*step} with k*step < max_value. -/
theorem C1_counterexample :
    (resample_dataframe [((2 : ℚ), 5)] 1 1 "linear" 1).map (List.map Prod.fst) =
      .ok [0, 2] ∧ ¬ ((2 : ℚ) < 1) := by
  constructor
  · norm_num [resample_dataframe, scaledDF, dedupLast, scaleTime, ratTrunc, precisionQ,
      DECIMAL_POINTS, newIndexOf, regularTicks, sortedUnion, List.insertionSort,
      List.orderedInsert, List.dedup, reindexDF, interpolateDF, supportedMethods, backendMethods, linear_not_mem_scipy, slinear_mem_scipy, nValid, interpGo,
      findNextValid, ffillAux, bfillList, roundDF, roundHalfEven, roundTo4, keepTick,
      gridFilterScale, List.filter, Except.map]
  · norm_num

/-- C2 counterexample: the samples (1.00001, 5) and (1.00002, 9) have times
that are equal within the fixed-point precision (both scale to the index
10000) but are not exactly equal, so deduplication does not remove either;
the frame then carries a duplicate index and the resampler fails with the
pandas duplicate-axis reindex error instead of keeping the later value. -/
theorem C2_counterexample :
    scaleTime (100001/100000) = scaleTime (100002/100000) ∧
      resample_dataframe [((100001/100000 : ℚ), 5), ((100002/100000 : ℚ), 9)] 2 1 "slinear" 1 =
        .error "cannot reindex from a duplicate axis" := by
  constructor
  · norm_num [scaleTime, ratTrunc, precisionQ, DECIMAL_POINTS]
  · norm_num [resample_dataframe, scaledDF, dedupLast, scaleTime, ratTrunc, precisionQ,
      DECIMAL_POINTS]

/-- C2 amended: deduplication applies only to samples whose times are exactly
equal, and then the resampler behaves as if the earlier of the two samples
were absent (last-keep), for every method and every parameter choice; in
particular the input {(1, 5), (1, 9)} resamples under the linear method to
the constant series 9.  Under the program's default slinear method the same
input leaves a single valid data point and raises scipy's minimum-two-points
error instead.  Two samples whose times agree only after fixed-point scaling
are not deduplicated and instead make the resampler fail with the
duplicate-axis error (see the counterexample). -/
theorem C2_dedup_keep_last :
    (∀ (l1 l2 l3 : List (ℚ × ℚ)) (t v w max_value step : ℚ) (method : String) (order : ℕ),
      resample_dataframe (l1 ++ (t, v) :: (l2 ++ (t, w) :: l3)) max_value step method order =
        resample_dataframe (l1 ++ (l2 ++ (t, w) :: l3)) max_value step method order) ∧
    resample_dataframe [((1 : ℚ), 5), ((1 : ℚ), 9)] 2 1 "linear" 1 =
      .ok [((0 : ℚ), some 9), (1, some 9)] ∧
    resample_dataframe [((1 : ℚ), 5), ((1 : ℚ), 9)] 2 1 "slinear" 1 =
      .error "x and y arrays must have at least 2 entries" := by
  refine ⟨?_, ?_, ?_⟩
  · intro l1 l2 l3 t v w max_value step method order
    exact resample_congr_dedup (dedupLast_dup_eq l1 l2 l3 t v w) max_value step method order
  · norm_num [resample_dataframe, scaledDF, dedupLast, scaleTime, ratTrunc, precisionQ,
      DECIMAL_POINTS, newIndexOf, regularTicks, sortedUnion, List.insertionSort,
      List.orderedInsert, List.dedup, reindexDF, interpolateDF, supportedMethods, backendMethods, linear_not_mem_scipy, slinear_mem_scipy, nValid, interpGo,
      findNextValid, ffillAux, bfillList, roundDF, roundHalfEven, roundTo4, keepTick,
      gridFilterScale, List.filter]
  · norm_num [resample_dataframe, scaledDF, dedupLast, scaleTime, ratTrunc, precisionQ,
      DECIMAL_POINTS, newIndexOf, regularTicks, sortedUnion, List.insertionSort,
      List.orderedInsert, List.dedup, reindexDF, interpolateDF, supportedMethods, backendMethods, linear_not_mem_scipy, slinear_mem_scipy, nValid, interpGo,
      findNextValid, List.filter]

theorem gridFilterScale_ticks_keep {max_value step : ℚ} {m : ℤ} (hm : 1 ≤ m)
    (hstep : step * precisionQ = (m : ℚ)) :
    ∀ i ∈ regularTicks max_value step, keepTick i m = true := by
  intro i hi
  obtain ⟨k, _, rfl⟩ := mem_regularTicks.mp hi
  rw [hstep]
  have hc : (k : ℚ) * (m : ℚ) = (((k : ℤ) * m : ℤ) : ℚ) := by
    push_cast
    ring
  rw [hc]
  exact keepTick_mul k m (by omega)

theorem tick_div_precision {step : ℚ} (k : ℕ) :
    ((k : ℚ) * (step * precisionQ)) / precisionQ = (k : ℚ) * step := by
  have hp : precisionQ ≠ 0 := by norm_num [precisionQ, DECIMAL_POINTS]
  field_simp
  ring

theorem gridFilterScale_ticks_none {max_value step : ℚ} {m : ℤ} (hm : 1 ≤ m)
    (hstep : step * precisionQ = (m : ℚ)) :
    gridFilterScale m ((regularTicks max_value step).map (fun i => (i, (none : Option ℚ)))) =
      (List.range ⌈max_value / step⌉.toNat).map
        (fun k : ℕ => ((k : ℚ) * step, (none : Option ℚ))) := by
  have hfilter : ((regularTicks max_value step).map
      (fun i => (i, (none : Option ℚ)))).filter (fun p => keepTick p.1 m) =
      (regularTicks max_value step).map (fun i => (i, none)) := by
    rw [List.filter_eq_self]
    intro p hp
    obtain ⟨i, hi, rfl⟩ := List.mem_map.mp hp
    exact gridFilterScale_ticks_keep hm hstep i hi
  unfold gridFilterScale
  rw [hfilter, List.map_map]
  unfold regularTicks
  rw [List.map_map]
  refine List.map_congr_left ?_
  intro k _
  simp only [Function.comp_apply]
  exact congrArg (fun z => (z, (none : Option ℚ))) (tick_div_precision k)

/-- C6: the empty sample set is not an error: the resampler returns a series
whose tick set is the full grid (one entry per grid tick) and whose values
are all missing. Stated for any supported method and any step whose
fixed-point image `step * 10^4` is a positive integer, as it is for the
program's fixed parameters. -/
theorem C6_empty_input (max_value step : ℚ) (method : String) (order : ℕ) (m : ℤ)
    (hm : 1 ≤ m) (hstep : step * precisionQ = (m : ℚ)) (hmeth : method ∈ supportedMethods) :
    resample_dataframe [] max_value step method order =
      .ok ((List.range ⌈max_value / step⌉.toNat).map
        (fun k : ℕ => ((k : ℚ) * step, (none : Option ℚ)))) := by
  have hnd : ((scaledDF ([] : List (ℚ × ℚ))).map Prod.fst).Nodup := by
    simp [scaledDF, dedupLast]
  have hok : ¬ (method ∈ scipyMethods ∧
      nValid (reindexDF (scaledDF ([] : List (ℚ × ℚ))) (newIndexOf [] max_value step)) = 1 ∧
      nValid (reindexDF (scaledDF ([] : List (ℚ × ℚ))) (newIndexOf [] max_value step)) <
        (reindexDF (scaledDF ([] : List (ℚ × ℚ))) (newIndexOf [] max_value step)).length) := by
    rintro ⟨-, h1, -⟩
    rw [nValid_all_none (reindexDF_all_none (fun i _ => by simp [scaledDF, dedupLast]))] at h1
    exact absurd h1 (by norm_num)
  rw [resample_eq_ok hnd (supported_mem_backend hmeth) hok]
  have hm' : ratTrunc (step * precisionQ) = m := by
    rw [hstep, ratTrunc_intCast]
  have hidx : newIndexOf [] max_value step = regularTicks max_value step := by
    refine sorted_lt_eq_of_mem_iff (sortedUnion_sorted _ _) (regularTicks_sorted hm hstep) ?_
    intro x
    unfold newIndexOf
    rw [mem_sortedUnion]
    simp [scaledDF, dedupLast]
  rw [hidx]
  have hreidx : reindexDF (scaledDF []) (regularTicks max_value step) =
      (regularTicks max_value step).map (fun i => (i, none)) := by
    simp [reindexDF, scaledDF, dedupLast, List.find?]
  rw [hreidx]
  have hallnone : ∀ p ∈ (regularTicks max_value step).map
      (fun i => (i, (none : Option ℚ))), p.2 = none := by
    intro p hp
    obtain ⟨i, _, rfl⟩ := List.mem_map.mp hp
    rfl
  rw [interpGo_all_none method 0 _ hallnone, ffillAux_all_none _ hallnone,
    bfillList_all_none _ hallnone]
  have hround : roundDF ((regularTicks max_value step).map (fun i => (i, (none : Option ℚ)))) =
      (regularTicks max_value step).map (fun i => (i, none)) := by
    simp [roundDF, List.map_map]
  rw [hround, hm']
  exact congrArg Except.ok (gridFilterScale_ticks_none hm hstep)

theorem C6_empty_input_witness :
    resample_dataframe [] 2 1 "slinear" 1 = .ok [((0 : ℚ), none), (1, none)] := by
  have h := C6_empty_input 2 1 "slinear" 1 10000 (by norm_num)
    (by norm_num [precisionQ, DECIMAL_POINTS]) (by simp [supportedMethods])
  rw [h]
  norm_num [show Int.toNat 2 = 2 from rfl, List.range_succ]

/-- Idempotence under re-gridding holds of the exact-rational scaling model:
a series already regular on the target grid (one sample at each tick
`j*step`, `j*step < max_value`) resamples, at the same `max_value` and
`step`, to exactly its own values rounded to 4 decimals, when every scaled
time `j*step*10^4` is computed exactly.  The program computes that product
in binary64, which for reachable grid times truncates to an off-grid index
and breaks the property (see the floating-point analysis below); this
theorem records only the idealized-model fact. -/
theorem regrid_idempotent_exact_scaling (max_value step : ℚ) (v : ℕ → ℚ) (method : String)
    (order : ℕ) (m : ℤ) (hm : 1 ≤ m) (hstep : step * precisionQ = (m : ℚ))
    (hmeth : method ∈ supportedMethods) :
    resample_dataframe
        ((List.range ⌈max_value / step⌉.toNat).map (fun j : ℕ => ((j : ℚ) * step, v j)))
        max_value step method order =
      .ok ((List.range ⌈max_value / step⌉.toNat).map
        (fun j : ℕ => ((j : ℚ) * step, some (roundTo4 (v j))))) ∧
    (∀ x : ℚ, |roundTo4 x - x| ≤ 1 / precisionQ) := by
  refine ⟨?_, fun x => roundTo4_sub_le x⟩
  have hprec : (0 : ℚ) < precisionQ := by norm_num [precisionQ, DECIMAL_POINTS]
  have hmq : (0 : ℚ) < (m : ℚ) := by exact_mod_cast (by omega : (0 : ℤ) < m)
  have hstep_pos : 0 < step := by
    have hs : step = (m : ℚ) / precisionQ := by
      rw [eq_div_iff (ne_of_gt hprec)]
      exact hstep
    rw [hs]
    positivity
  set n := ⌈max_value / step⌉.toNat with hn
  set samples := (List.range n).map (fun j : ℕ => ((j : ℚ) * step, v j)) with hsamples
  have hkeys : (samples.map Prod.fst).Nodup := by
    rw [hsamples, List.map_map]
    refine List.Nodup.map ?_ (List.nodup_range _)
    intro a b hab
    simp only [Function.comp_apply] at hab
    have := mul_right_cancel₀ (ne_of_gt hstep_pos) hab
    exact_mod_cast this
  have hded : dedupLast samples = samples := dedupLast_eq_self samples hkeys
  have hscaled : scaledDF samples =
      (List.range n).map (fun j : ℕ => ((j : ℚ) * (m : ℚ), v j)) := by
    unfold scaledDF
    rw [hded, hsamples, List.map_map]
    refine List.map_congr_left ?_
    intro j _
    simp only [Function.comp_apply, Prod.mk.injEq]
    refine ⟨?_, trivial⟩
    have hsc : scaleTime ((j : ℚ) * step) = (j : ℤ) * m := by
      refine scaleTime_eq ?_
      push_cast
      rw [mul_assoc, hstep]
    rw [hsc]
    push_cast
    ring
  have hkeysQ : (scaledDF samples).map Prod.fst =
      (List.range n).map (fun j : ℕ => (j : ℚ) * (m : ℚ)) := by
    rw [hscaled, List.map_map]
    rfl
  have hticks : regularTicks max_value step =
      (List.range n).map (fun j : ℕ => (j : ℚ) * (m : ℚ)) := by
    unfold regularTicks
    refine List.map_congr_left ?_
    intro j _
    rw [hstep]
  have hLsorted : ((List.range n).map (fun j : ℕ => (j : ℚ) * (m : ℚ))).Sorted (· < ·) := by
    refine List.pairwise_map.mpr ?_
    refine (List.pairwise_lt_range _).imp ?_
    intro a b hab
    exact mul_lt_mul_of_pos_right (by exact_mod_cast hab) hmq
  have hnd : ((scaledDF samples).map Prod.fst).Nodup := by
    rw [hkeysQ]
    exact hLsorted.nodup
  have hidx : newIndexOf samples max_value step =
      (List.range n).map (fun j : ℕ => (j : ℚ) * (m : ℚ)) := by
    refine sorted_lt_eq_of_mem_iff (sortedUnion_sorted _ _) hLsorted ?_
    intro x
    unfold newIndexOf
    rw [mem_sortedUnion, hkeysQ, hticks, or_self]
  have hreidx : reindexDF (scaledDF samples)
      ((List.range n).map (fun j : ℕ => (j : ℚ) * (m : ℚ))) =
      (List.range n).map (fun j : ℕ => ((j : ℚ) * (m : ℚ), some (v j))) := by
    unfold reindexDF
    rw [List.map_map]
    refine List.map_congr_left ?_
    intro j hj
    simp only [Function.comp_apply]
    have hmem : ((j : ℚ) * (m : ℚ), v j) ∈ scaledDF samples := by
      rw [hscaled]
      exact List.mem_map_of_mem _ hj
    rw [find?_key_of_mem hnd hmem]
    rfl
  have hsome : ∀ p ∈ (List.range n).map
      (fun j : ℕ => ((j : ℚ) * (m : ℚ), some (v j))), p.2.isSome := by
    intro p hp
    obtain ⟨j, _, rfl⟩ := List.mem_map.mp hp
    rfl
  have hok : ¬ (method ∈ scipyMethods ∧
      nValid (reindexDF (scaledDF samples) (newIndexOf samples max_value step)) = 1 ∧
      nValid (reindexDF (scaledDF samples) (newIndexOf samples max_value step)) <
        (reindexDF (scaledDF samples) (newIndexOf samples max_value step)).length) := by
    rintro ⟨-, -, hlt⟩
    rw [hidx, hreidx, nValid_all_some hsome] at hlt
    exact lt_irrefl _ hlt
  rw [resample_eq_ok hnd (supported_mem_backend hmeth) hok, hidx, hreidx]
  rw [interpGo_all_some method none 0 _ hsome, ffillAux_all_some none _ hsome,
    bfillList_all_some _ hsome]
  have hm' : ratTrunc (step * precisionQ) = m := by
    rw [hstep, ratTrunc_intCast]
  rw [hm']
  have hround : roundDF ((List.range n).map
      (fun j : ℕ => ((j : ℚ) * (m : ℚ), some (v j)))) =
      (List.range n).map (fun j : ℕ => ((j : ℚ) * (m : ℚ), some (roundTo4 (v j)))) := by
    unfold roundDF
    rw [List.map_map]
    rfl
  rw [hround]
  refine congrArg Except.ok ?_
  unfold gridFilterScale
  have hkeep : ∀ p ∈ (List.range n).map
      (fun j : ℕ => ((j : ℚ) * (m : ℚ), some (roundTo4 (v j)))), keepTick p.1 m = true := by
    intro p hp
    obtain ⟨j, _, rfl⟩ := List.mem_map.mp hp
    have hc : (j : ℚ) * (m : ℚ) = (((j : ℤ) * m : ℤ) : ℚ) := by
      push_cast
      ring
    simp only [hc]
    exact keepTick_mul j m (by omega)
  rw [List.filter_eq_self.mpr hkeep, List.map_map]
  refine List.map_congr_left ?_
  intro j _
  simp only [Function.comp_apply, Prod.mk.injEq]
  refine ⟨?_, trivial⟩
  rw [← hstep]
  exact tick_div_precision j

theorem regrid_idempotent_exact_scaling_check :
    resample_dataframe [((0 : ℚ), 0), ((1 : ℚ), 1)] 2 1 "slinear" 1 =
      .ok [((0 : ℚ), some 0), (1, some 1)] := by
  have h := (regrid_idempotent_exact_scaling 2 1 (fun j => (j : ℚ)) "slinear" 1 10000 (by norm_num)
    (by norm_num [precisionQ, DECIMAL_POINTS]) (by simp [supportedMethods])).1
  have h2 : ⌈(2 : ℚ) / 1⌉.toNat = 2 := by
    rw [show ⌈(2 : ℚ) / 1⌉ = 2 from by norm_num]
    rfl
  rw [h2] at h
  norm_num [List.range_succ, roundTo4, roundHalfEven, precisionQ, DECIMAL_POINTS] at h
  exact h

/-- C5: a (deduplicated) sample whose fixed-point time lands exactly on a
grid tick supplies the output value at that tick: the series carries the
sample's own value rounded to 4 decimals, not a value contributed by the
grid side of the index union.  For the scipy-backed methods (the default
slinear among them) at least two deduplicated samples are required, since
a single valid data point makes the interpolation stage raise. -/
theorem C5_collision_sample_precedence (samples : List (ℚ × ℚ)) (max_value step t vv : ℚ)
    (method : String) (order : ℕ) (m : ℤ) (k : ℕ)
    (hm : 1 ≤ m) (hstep : step * precisionQ = (m : ℚ)) (hmeth : method ∈ supportedMethods)
    (hsc : method ∈ scipyMethods → 2 ≤ (dedupLast samples).length)
    (hnd : ((scaledDF samples).map Prod.fst).Nodup)
    (hmem : (t, vv) ∈ dedupLast samples)
    (hcoll : scaleTime t = (k : ℤ) * m) (_hk : k < ⌈max_value / step⌉.toNat) :
    ∃ out, resample_dataframe samples max_value step method order = .ok out ∧
      seriesAt out ((k : ℚ) * step) = some (some (roundTo4 vv)) := by
  have hm' : ratTrunc (step * precisionQ) = m := by
    rw [hstep, ratTrunc_intCast]
  rw [resample_eq_ok hnd (supported_mem_backend hmeth) (resample_no_scipy_error hnd hsc), hm']
  have hentry : (((scaleTime t : ℤ) : ℚ), vv) ∈ scaledDF samples := by
    unfold scaledDF
    exact List.mem_map_of_mem _ hmem
  have hkey : ((scaleTime t : ℤ) : ℚ) ∈ (scaledDF samples).map Prod.fst :=
    List.mem_map_of_mem Prod.fst hentry
  have hidxmem : ((scaleTime t : ℤ) : ℚ) ∈ newIndexOf samples max_value step := by
    unfold newIndexOf
    rw [mem_sortedUnion]
    exact Or.inl hkey
  have hre : (((scaleTime t : ℤ) : ℚ), some vv) ∈
      reindexDF (scaledDF samples) (newIndexOf samples max_value step) :=
    reindexDF_entry_of_mem hnd hentry hidxmem
  have hfill : (((scaleTime t : ℤ) : ℚ), some vv) ∈
      bfillList (ffillAux none (interpGo method none 0
        (reindexDF (scaledDF samples) (newIndexOf samples max_value step)))) :=
    mem_bfillList_of_some _ _ _
      (mem_ffillAux_of_some _ _ none _
        (mem_interpGo_of_some method _ _ none 0 _ hre))
  have hrd : (((scaleTime t : ℤ) : ℚ), some (roundTo4 vv)) ∈
      roundDF (bfillList (ffillAux none (interpGo method none 0
        (reindexDF (scaledDF samples) (newIndexOf samples max_value step))))) :=
    mem_roundDF_of_mem hfill
  have hkeep : keepTick (((scaleTime t : ℤ) : ℚ)) m = true := by
    rw [hcoll]
    exact keepTick_mul k m (by omega)
  have hout := mem_gridFilterScale hrd hkeep
  have hdiv : (((scaleTime t : ℤ) : ℚ)) / precisionQ = (k : ℚ) * step := by
    rw [hcoll]
    push_cast
    rw [← hstep]
    exact tick_div_precision k
  rw [hdiv] at hout
  have houtnd : ((gridFilterScale m
      (roundDF (bfillList (ffillAux none (interpGo method none 0
        (reindexDF (scaledDF samples) (newIndexOf samples max_value step))))))).map
          Prod.fst).Nodup := by
    refine gridFilterScale_keys_nodup ?_
    rw [fill_map_fst, reindexDF_map_fst]
    exact (sortedUnion_sorted _ _).nodup
  exact ⟨_, rfl, seriesAt_of_mem houtnd hout⟩

theorem C5_collision_sample_precedence_witness :
    ∃ out, resample_dataframe [((1 : ℚ), 7), ((2 : ℚ), 9)] 3 1 "slinear" 1 = .ok out ∧
      seriesAt out ((1 : ℚ) * 1) = some (some (roundTo4 7)) := by
  refine C5_collision_sample_precedence [((1 : ℚ), 7), ((2 : ℚ), 9)] 3 1 1 7 "slinear" 1 10000 1
    (by norm_num) (by norm_num [precisionQ, DECIMAL_POINTS]) (by simp [supportedMethods])
    ?_ ?_ ?_ ?_ ?_
  · intro _
    norm_num [dedupLast]
  · norm_num [scaledDF, dedupLast, scaleTime, ratTrunc, precisionQ, DECIMAL_POINTS]
  · simp [dedupLast]
  · norm_num [scaleTime, ratTrunc, precisionQ, DECIMAL_POINTS]
  · rw [show ⌈(3 : ℚ) / 1⌉ = 3 from by norm_num]
    norm_num

/-- C7 amended: a single-sample input is not an error for the numpy
`interp`-based methods (linear, index, values): the resampler returns an
all-constant series — every output entry, and in particular every grid tick,
carries that sample's value (rounded to 4 decimals), via the edge-extension
rule.  Under the scipy-backed methods — the program's default slinear among
them — the single valid data point makes the interpolation stage raise
scipy's minimum-two-points error whenever any grid tick is missing (see the
counterexample). -/
theorem C7_single_sample (t vv max_value step : ℚ) (method : String) (order : ℕ) (m : ℤ)
    (hm : 1 ≤ m) (hstep : step * precisionQ = (m : ℚ)) (hmeth : method ∈ supportedMethods)
    (hnsc : method ∉ scipyMethods) :
    ∃ out, resample_dataframe [(t, vv)] max_value step method order = .ok out ∧
      (∀ p ∈ out, p.2 = some (roundTo4 vv)) ∧
      (∀ k : ℕ, k < ⌈max_value / step⌉.toNat →
        ((k : ℚ) * step, some (roundTo4 vv)) ∈ out) := by
  have hded : dedupLast [(t, vv)] = [(t, vv)] := by
    simp [dedupLast]
  have hscaled : scaledDF [(t, vv)] = [(((scaleTime t : ℤ) : ℚ), vv)] := by
    unfold scaledDF
    rw [hded]
    rfl
  set s : ℚ := ((scaleTime t : ℤ) : ℚ) with hs
  have hnd : ((scaledDF [(t, vv)]).map Prod.fst).Nodup := by
    rw [hscaled]
    simp
  have hm' : ratTrunc (step * precisionQ) = m := by
    rw [hstep, ratTrunc_intCast]
  rw [resample_eq_ok hnd (supported_mem_backend hmeth)
    (resample_no_scipy_error hnd (fun h => absurd h hnsc)), hm']
  set L := newIndexOf [(t, vv)] max_value step with hL
  have hLsorted : L.Sorted (· < ·) := by
    rw [hL]
    unfold newIndexOf
    exact sortedUnion_sorted _ _
  have hsmem : s ∈ L := by
    rw [hL]
    unfold newIndexOf
    rw [mem_sortedUnion, hscaled]
    exact Or.inl (by simp)
  obtain ⟨P, Q, hsplit, hP, hQ⟩ := sorted_split hLsorted hsmem
  have hPnone : ∀ p ∈ reindexDF (scaledDF [(t, vv)]) P, p.2 = none := by
    refine reindexDF_all_none ?_
    intro i hi
    rw [hscaled]
    simp only [List.map_cons, List.map_nil, List.mem_singleton]
    exact ne_of_lt (hP i hi)
  have hQnone : ∀ p ∈ reindexDF (scaledDF [(t, vv)]) Q, p.2 = none := by
    refine reindexDF_all_none ?_
    intro i hi
    rw [hscaled]
    simp only [List.map_cons, List.map_nil, List.mem_singleton]
    exact (ne_of_lt (hQ i hi)).symm
  have hfind : (scaledDF [(t, vv)]).find? (fun p => decide (p.1 = s)) = some (s, vv) :=
    find?_key_of_mem hnd (by rw [hscaled]; simp)
  have hre : reindexDF (scaledDF [(t, vv)]) L =
      reindexDF (scaledDF [(t, vv)]) P ++ (s, some vv) :: reindexDF (scaledDF [(t, vv)]) Q := by
    rw [hsplit, reindexDF_append, reindexDF_cons, hfind]
    rfl
  rw [hre, fillStages_single method s vv _ _ hPnone hQnone, ← hre]
  set base := reindexDF (scaledDF [(t, vv)]) L with hbase
  have hroundmap : roundDF (base.map (fun p => (p.1, some vv))) =
      base.map (fun p => (p.1, some (roundTo4 vv))) := by
    unfold roundDF
    rw [List.map_map]
    rfl
  rw [hroundmap]
  refine ⟨_, rfl, ?_, ?_⟩
  · intro p hp
    unfold gridFilterScale at hp
    obtain ⟨q, hq, rfl⟩ := List.mem_map.mp hp
    obtain ⟨r, _, rfl⟩ := List.mem_map.mp (List.mem_filter.mp hq).1
    rfl
  · intro k hk
    have htick : (k : ℚ) * (step * precisionQ) ∈ regularTicks max_value step :=
      mem_regularTicks.mpr ⟨k, hk, rfl⟩
    have htickL : (k : ℚ) * (step * precisionQ) ∈ L := by
      rw [hL]
      unfold newIndexOf
      rw [mem_sortedUnion]
      exact Or.inr htick
    have hkeyL : (k : ℚ) * (step * precisionQ) ∈ base.map Prod.fst := by
      rw [hbase, reindexDF_map_fst]
      exact htickL
    obtain ⟨q, hq, hq1⟩ := List.mem_map.mp hkeyL
    have hentry : ((k : ℚ) * (step * precisionQ), some (roundTo4 vv)) ∈
        base.map (fun p => (p.1, some (roundTo4 vv))) := by
      have hmm := List.mem_map_of_mem (fun p : ℚ × Option ℚ => (p.1, some (roundTo4 vv))) hq
      simpa [hq1] using hmm
    have hkeep : keepTick ((k : ℚ) * (step * precisionQ)) m = true :=
      gridFilterScale_ticks_keep hm hstep _ htick
    have hout := mem_gridFilterScale hentry hkeep
    rwa [tick_div_precision k] at hout

set_option maxHeartbeats 1000000 in
/-- C1 amended: grid exactness holds under the conditions the program's
fixed parameters satisfy, and with the input's scaled times either inside
the horizon or off the step grid: if `step * 10^4` is a positive integer `m`
and every scaled sample time divisible by `m` lies in `[0, max_value*10^4)`,
then the output tick set is exactly `{0, step, ..., k*step}` with
`k*step < max_value`. Without the proviso on sample times the claim fails:
a sample at a multiple of `step` outside the horizon survives the modulo
filter and appears as an extra output tick (see the counterexample).  For
the scipy-backed methods at least two deduplicated samples are required,
since a single valid data point makes the interpolation stage raise. -/
theorem C1_grid_exactness_amended (samples : List (ℚ × ℚ)) (max_value step : ℚ)
    (method : String) (order : ℕ) (m : ℤ)
    (hm : 1 ≤ m) (hstep : step * precisionQ = (m : ℚ)) (hmeth : method ∈ supportedMethods)
    (hsc : method ∈ scipyMethods → 2 ≤ (dedupLast samples).length)
    (hnd : ((scaledDF samples).map Prod.fst).Nodup)
    (hrange : ∀ i ∈ scaledTimes samples, m ∣ i →
      0 ≤ i ∧ (i : ℚ) < max_value * precisionQ) :
    ∃ out, resample_dataframe samples max_value step method order = .ok out ∧
      out.map Prod.fst =
        (List.range ⌈max_value / step⌉.toNat).map (fun k : ℕ => (k : ℚ) * step) := by
  have hm0 : (0 : ℤ) < m := by omega
  have hprec : (0 : ℚ) < precisionQ := by norm_num [precisionQ, DECIMAL_POINTS]
  have hstep_pos : 0 < step := by
    have hs : step = (m : ℚ) / precisionQ := by
      rw [eq_div_iff (ne_of_gt hprec)]
      exact hstep
    rw [hs]
    have : (0 : ℚ) < (m : ℚ) := by exact_mod_cast hm0
    positivity
  have hm' : ratTrunc (step * precisionQ) = m := by
    rw [hstep, ratTrunc_intCast]
  rw [resample_eq_ok hnd (supported_mem_backend hmeth) (resample_no_scipy_error hnd hsc), hm']
  refine ⟨_, rfl, ?_⟩
  rw [gridFilterScale_map_fst, fill_map_fst, reindexDF_map_fst]
  have hLsorted : (newIndexOf samples max_value step).Sorted (· < ·) := by
    unfold newIndexOf
    exact sortedUnion_sorted _ _
  have hfe : (newIndexOf samples max_value step).filter (fun x => keepTick x m) =
      regularTicks max_value step := by
    refine sorted_lt_eq_of_mem_iff (hLsorted.filter _) (regularTicks_sorted hm hstep) ?_
    intro x
    rw [List.mem_filter]
    constructor
    · rintro ⟨hxL, hxk⟩
      unfold newIndexOf at hxL
      rw [mem_sortedUnion] at hxL
      rcases hxL with hkey | htick
      · rw [scaledDF_map_fst] at hkey
        obtain ⟨i, hi, rfl⟩ := List.mem_map.mp hkey
        have hdvd : m ∣ i := (keepTick_intCast hm0).mp hxk
        obtain ⟨h0i, hlti⟩ := hrange i hi hdvd
        obtain ⟨c, hc⟩ := hdvd
        have hc0 : 0 ≤ c := by
          by_contra hneg
          push_neg at hneg
          nlinarith [hc, h0i, hm0]
        refine mem_regularTicks.mpr ⟨c.toNat, ?_, ?_⟩
        · have hcq : (c : ℚ) * (m : ℚ) < max_value * precisionQ := by
            rw [hc] at hlti
            push_cast at hlti
            linarith
          have hcs : (c : ℚ) * step < max_value := by
            rw [← hstep] at hcq
            nlinarith
          have hlt2 : (c : ℚ) < max_value / step := by
            rw [lt_div_iff₀ hstep_pos]
            exact hcs
          have hceil : c < ⌈max_value / step⌉ := Int.lt_ceil.mpr (by exact_mod_cast hlt2)
          omega
        · have hcast : ((c.toNat : ℕ) : ℚ) = (c : ℚ) := by
            exact_mod_cast congrArg (fun z : ℤ => (z : ℚ)) (Int.toNat_of_nonneg hc0)
          rw [hcast, hstep, hc]
          push_cast
          ring
      · exact htick
    · intro htick
      refine ⟨?_, gridFilterScale_ticks_keep hm hstep x htick⟩
      unfold newIndexOf
      rw [mem_sortedUnion]
      exact Or.inr htick
  rw [hfe]
  unfold regularTicks
  rw [List.map_map]
  refine List.map_congr_left ?_
  intro k _
  simp only [Function.comp_apply]
  exact tick_div_precision k

theorem C1_grid_exactness_amended_witness :
    ∃ out, resample_dataframe [((1 : ℚ), 7)] 2 1 "linear" 1 = .ok out ∧
      out.map Prod.fst =
        (List.range ⌈(2 : ℚ) / 1⌉.toNat).map (fun k : ℕ => (k : ℚ) * 1) := by
  refine C1_grid_exactness_amended [((1 : ℚ), 7)] 2 1 "linear" 1 10000
    (by norm_num) (by norm_num [precisionQ, DECIMAL_POINTS]) (by simp [supportedMethods])
    (by intro h; simp [scipyMethods] at h)
    ?_ ?_
  · norm_num [scaledDF, dedupLast, scaleTime, ratTrunc, precisionQ, DECIMAL_POINTS]
  · intro i hi _
    simp only [scaledTimes, dedupLast, List.any_nil, Bool.false_eq_true, if_false,
      List.map_cons, List.map_nil, List.mem_singleton] at hi
    norm_num [scaleTime, ratTrunc, precisionQ, DECIMAL_POINTS] at hi
    subst hi
    norm_num [precisionQ, DECIMAL_POINTS]

set_option maxHeartbeats 2000000 in
/-- C4 amended: edge extension. For a deduplicated input holding at least
two distinct fixed-point times, with earliest sample `(t0, v0)` and latest
`(tl, vl)`, every grid tick strictly before the first sample's fixed-point
time receives the first sample's value and every grid tick strictly after
the last sample's fixed-point time receives the last sample's value
(rounded to 4 decimals): flat extension by forward- then backward-fill,
never extrapolation. Stated for every supported method.  The claim's "every
non-empty input" is too wide: a single-sample input under the program's
default slinear method raises scipy's minimum-two-points error, so its
leading ticks receive nothing (see the counterexample). -/
theorem C4_edge_extension (samples : List (ℚ × ℚ)) (max_value step t0 v0 tl vl : ℚ)
    (method : String) (order : ℕ) (m : ℤ)
    (hm : 1 ≤ m) (hstep : step * precisionQ = (m : ℚ)) (hmeth : method ∈ supportedMethods)
    (hnd : ((scaledDF samples).map Prod.fst).Nodup)
    (h0 : (t0, v0) ∈ dedupLast samples)
    (h0min : ∀ p ∈ dedupLast samples, scaleTime t0 ≤ scaleTime p.1)
    (hl : (tl, vl) ∈ dedupLast samples)
    (hlmax : ∀ p ∈ dedupLast samples, scaleTime p.1 ≤ scaleTime tl)
    (hlt0l : scaleTime t0 < scaleTime tl) :
    ∃ out, resample_dataframe samples max_value step method order = .ok out ∧
      ∀ k : ℕ, k < ⌈max_value / step⌉.toNat →
        ((k : ℤ) * m < scaleTime t0 → ((k : ℚ) * step, some (roundTo4 v0)) ∈ out) ∧
        (scaleTime tl < (k : ℤ) * m → ((k : ℚ) * step, some (roundTo4 vl)) ∈ out) := by
  have hm' : ratTrunc (step * precisionQ) = m := by
    rw [hstep, ratTrunc_intCast]
  have hne : (t0, v0) ≠ (tl, vl) := by
    intro he
    have ht : t0 = tl := congrArg Prod.fst he
    rw [ht] at hlt0l
    exact lt_irrefl _ hlt0l
  have hsc : method ∈ scipyMethods → 2 ≤ (dedupLast samples).length :=
    fun _ => two_le_length_of_two_mem h0 hl hne
  rw [resample_eq_ok hnd (supported_mem_backend hmeth) (resample_no_scipy_error hnd hsc), hm']
  refine ⟨_, rfl, ?_⟩
  intro k hk
  set L := newIndexOf samples max_value step with hL
  have hLsorted : L.Sorted (· < ·) := by
    rw [hL]
    unfold newIndexOf
    exact sortedUnion_sorted _ _
  have hkeys_char : ∀ x ∈ (scaledDF samples).map Prod.fst,
      ∃ p ∈ dedupLast samples, x = ((scaleTime p.1 : ℤ) : ℚ) := by
    intro x hx
    unfold scaledDF at hx
    rw [List.map_map] at hx
    obtain ⟨p, hp, rfl⟩ := List.mem_map.mp hx
    exact ⟨p, hp, rfl⟩
  have hkeymin : ∀ x ∈ (scaledDF samples).map Prod.fst, ((scaleTime t0 : ℤ) : ℚ) ≤ x := by
    intro x hx
    obtain ⟨p, hp, rfl⟩ := hkeys_char x hx
    exact_mod_cast h0min p hp
  have hkeymax : ∀ x ∈ (scaledDF samples).map Prod.fst, x ≤ ((scaleTime tl : ℤ) : ℚ) := by
    intro x hx
    obtain ⟨p, hp, rfl⟩ := hkeys_char x hx
    exact_mod_cast hlmax p hp
  have h0entry : (((scaleTime t0 : ℤ) : ℚ), v0) ∈ scaledDF samples := by
    unfold scaledDF
    exact List.mem_map_of_mem _ h0
  have hlentry : (((scaleTime tl : ℤ) : ℚ), vl) ∈ scaledDF samples := by
    unfold scaledDF
    exact List.mem_map_of_mem _ hl
  have h0L : ((scaleTime t0 : ℤ) : ℚ) ∈ L := by
    rw [hL]
    unfold newIndexOf
    rw [mem_sortedUnion]
    exact Or.inl (List.mem_map_of_mem Prod.fst h0entry)
  have hlL : ((scaleTime tl : ℤ) : ℚ) ∈ L := by
    rw [hL]
    unfold newIndexOf
    rw [mem_sortedUnion]
    exact Or.inl (List.mem_map_of_mem Prod.fst hlentry)
  have hqtick : (k : ℚ) * (step * precisionQ) ∈ regularTicks max_value step :=
    mem_regularTicks.mpr ⟨k, hk, rfl⟩
  have hqL : (k : ℚ) * (step * precisionQ) ∈ L := by
    rw [hL]
    unfold newIndexOf
    rw [mem_sortedUnion]
    exact Or.inr hqtick
  have hqcast : (k : ℚ) * (step * precisionQ) = (((k : ℤ) * m : ℤ) : ℚ) := by
    rw [hstep]
    push_cast
    ring
  have hqkeep : keepTick ((k : ℚ) * (step * precisionQ)) m = true :=
    gridFilterScale_ticks_keep hm hstep _ hqtick
  constructor
  · intro hlt
    have hqlt : (k : ℚ) * (step * precisionQ) < ((scaleTime t0 : ℤ) : ℚ) := by
      rw [hqcast]
      exact_mod_cast hlt
    obtain ⟨P, Q', hsplit, hP, hQ'⟩ := sorted_split hLsorted h0L
    have hPnone : ∀ p ∈ reindexDF (scaledDF samples) P, p.2 = none := by
      refine reindexDF_all_none ?_
      intro i hi hikey
      exact absurd (hkeymin i hikey) (not_le.mpr (hP i hi))
    have hfind0 : (scaledDF samples).find?
        (fun p => decide (p.1 = ((scaleTime t0 : ℤ) : ℚ))) =
        some (((scaleTime t0 : ℤ) : ℚ), v0) := find?_key_of_mem hnd h0entry
    have hre : reindexDF (scaledDF samples) L =
        reindexDF (scaledDF samples) P ++ (((scaleTime t0 : ℤ) : ℚ), some v0) ::
          reindexDF (scaledDF samples) Q' := by
      rw [hsplit, reindexDF_append, reindexDF_cons, hfind0]
      rfl
    obtain ⟨C, hC⟩ := fill_leading method (((scaleTime t0 : ℤ) : ℚ)) v0
      (reindexDF (scaledDF samples) Q') (reindexDF (scaledDF samples) P) hPnone
    have hqP : (k : ℚ) * (step * precisionQ) ∈ P := by
      have hmem' : (k : ℚ) * (step * precisionQ) ∈
          P ++ (((scaleTime t0 : ℤ) : ℚ)) :: Q' := hsplit ▸ hqL
      rcases List.mem_append.mp hmem' with h | h
      · exact h
      rcases List.mem_cons.mp h with h | h
      · exact absurd h (ne_of_lt hqlt)
      · exact absurd (hQ' _ h) (not_lt.mpr (le_of_lt hqlt))
    have hqkeyA : (k : ℚ) * (step * precisionQ) ∈
        (reindexDF (scaledDF samples) P).map Prod.fst := by
      rw [reindexDF_map_fst]
      exact hqP
    obtain ⟨e, he, he1⟩ := List.mem_map.mp hqkeyA
    have hentry : ((k : ℚ) * (step * precisionQ), some v0) ∈
        (reindexDF (scaledDF samples) P).map (fun p => (p.1, some v0)) := by
      have hmm := List.mem_map_of_mem (fun p : ℚ × Option ℚ => (p.1, some v0)) he
      simpa [he1] using hmm
    have hmemfill : ((k : ℚ) * (step * precisionQ), some v0) ∈
        bfillList (ffillAux none (interpGo method none 0
          (reindexDF (scaledDF samples) L))) := by
      rw [hre, hC]
      exact List.mem_append_left _ hentry
    have hout := mem_gridFilterScale (mem_roundDF_of_mem hmemfill) hqkeep
    rwa [tick_div_precision k] at hout
  · intro hgt
    have hqgt : ((scaleTime tl : ℤ) : ℚ) < (k : ℚ) * (step * precisionQ) := by
      rw [hqcast]
      exact_mod_cast hgt
    obtain ⟨D, E, hsplit, hD, hE⟩ := sorted_split hLsorted hlL
    have hEnone : ∀ p ∈ reindexDF (scaledDF samples) E, p.2 = none := by
      refine reindexDF_all_none ?_
      intro i hi hikey
      exact absurd (hkeymax i hikey) (not_le.mpr (hE i hi))
    have hfindl : (scaledDF samples).find?
        (fun p => decide (p.1 = ((scaleTime tl : ℤ) : ℚ))) =
        some (((scaleTime tl : ℤ) : ℚ), vl) := find?_key_of_mem hnd hlentry
    have hre : reindexDF (scaledDF samples) L =
        reindexDF (scaledDF samples) D ++ (((scaleTime tl : ℤ) : ℚ), some vl) ::
          reindexDF (scaledDF samples) E := by
      rw [hsplit, reindexDF_append, reindexDF_cons, hfindl]
      rfl
    obtain ⟨C, hC⟩ := fill_trailing method (((scaleTime tl : ℤ) : ℚ)) vl
      (reindexDF (scaledDF samples) D) (reindexDF (scaledDF samples) E) hEnone
    have hqE : (k : ℚ) * (step * precisionQ) ∈ E := by
      have hmem' : (k : ℚ) * (step * precisionQ) ∈
          D ++ (((scaleTime tl : ℤ) : ℚ)) :: E := hsplit ▸ hqL
      rcases List.mem_append.mp hmem' with h | h
      · exact absurd (hD _ h) (not_lt.mpr (le_of_lt hqgt))
      rcases List.mem_cons.mp h with h | h
      · exact absurd h (ne_of_gt hqgt)
      · exact h
    have hqkeyE : (k : ℚ) * (step * precisionQ) ∈
        (reindexDF (scaledDF samples) E).map Prod.fst := by
      rw [reindexDF_map_fst]
      exact hqE
    obtain ⟨e, he, he1⟩ := List.mem_map.mp hqkeyE
    have hentry : ((k : ℚ) * (step * precisionQ), some vl) ∈
        (reindexDF (scaledDF samples) E).map (fun p => (p.1, some vl)) := by
      have hmm := List.mem_map_of_mem (fun p : ℚ × Option ℚ => (p.1, some vl)) he
      simpa [he1] using hmm
    have hmemfill : ((k : ℚ) * (step * precisionQ), some vl) ∈
        bfillList (ffillAux none (interpGo method none 0
          (reindexDF (scaledDF samples) L))) := by
      rw [hre, hC]
      exact List.mem_append_right _ (List.mem_cons_of_mem _ hentry)
    have hout := mem_gridFilterScale (mem_roundDF_of_mem hmemfill) hqkeep
    rwa [tick_div_precision k] at hout

theorem C4_edge_extension_witness :
    ∃ out, resample_dataframe [((1 : ℚ), 10), ((3 : ℚ), 30)] 4 1 "slinear" 1 = .ok out ∧
      ∀ k : ℕ, k < ⌈(4 : ℚ) / 1⌉.toNat →
        ((k : ℤ) * 10000 < scaleTime 1 → ((k : ℚ) * 1, some (roundTo4 10)) ∈ out) ∧
        (scaleTime 3 < (k : ℤ) * 10000 → ((k : ℚ) * 1, some (roundTo4 30)) ∈ out) := by
  refine C4_edge_extension [((1 : ℚ), 10), ((3 : ℚ), 30)] 4 1 1 10 3 30 "slinear" 1 10000
    (by norm_num) (by norm_num [precisionQ, DECIMAL_POINTS]) (by simp [supportedMethods])
    ?_ ?_ ?_ ?_ ?_ ?_
  · norm_num [scaledDF, dedupLast, scaleTime, ratTrunc, precisionQ, DECIMAL_POINTS]
  · simp [dedupLast]
  · intro p hp
    simp only [dedupLast, List.any_nil, List.any_cons, decide_eq_true_eq] at hp
    norm_num at hp
    rcases hp with h | h <;>
      simp [h, scaleTime, ratTrunc, precisionQ, DECIMAL_POINTS]
    all_goals norm_num
  · simp [dedupLast]
  · intro p hp
    simp only [dedupLast, List.any_nil, List.any_cons, decide_eq_true_eq] at hp
    norm_num at hp
    rcases hp with h | h <;>
      simp [h, scaleTime, ratTrunc, precisionQ, DECIMAL_POINTS]
    all_goals norm_num
  · norm_num [scaleTime, ratTrunc, precisionQ, DECIMAL_POINTS]

/-- C4 counterexample to the claim's full breadth: for the non-empty input
{(1, 10)} with max_value 4, step 1 and the program's default slinear
method, the resampler raises scipy's minimum-two-points error, so the grid
tick 0 before the first sample receives no value at all. -/
theorem C4_counterexample :
    resample_dataframe [((1 : ℚ), 10)] 4 1 "slinear" 1 =
      .error "x and y arrays must have at least 2 entries" := by
  norm_num [resample_dataframe, scaledDF, dedupLast, scaleTime, ratTrunc, precisionQ,
    DECIMAL_POINTS, newIndexOf, regularTicks, sortedUnion, List.insertionSort,
    List.orderedInsert, List.dedup, reindexDF, interpolateDF, supportedMethods,
    backendMethods, linear_not_mem_scipy, slinear_mem_scipy, nValid, findNextValid, List.filter]

/-- C10 counterexample: the claim's own example is wrong. The binary64
value of 0.29 multiplied by 10^4 rounds to exactly 2900.0, so `astype(int)`
yields the fixed-point index 2900, not 2899, and that index does coincide
with its grid tick (it survives the modulo-100 filter of step 0.01). -/
theorem C10_counterexample :
    scaleTimeFloat (roundToDouble (29/100)) = 2900 ∧
      keepTick ((2900 : ℚ)) 100 = true := by
  have hceil : ⌈((29 : ℚ)/100)⁻¹⌉ = 4 := by
    rw [Int.ceil_eq_iff]
    constructor <;> norm_num
  have hlog : floorLog2 ((29 : ℚ)/100) = -2 := by
    unfold floorLog2
    rw [if_neg (by norm_num), if_neg (by norm_num), hceil]
    decide
  have hval : (29 : ℚ)/100 * (2 : ℚ) ^ ((52 : ℤ) - (-2)) = 130604389193744384/25 := by
    norm_num
  have hfl1 : ⌊(130604389193744384 : ℚ)/25⌋ = 5224175567749775 := by
    rw [Int.floor_eq_iff]
    constructor <;> norm_num
  have hrhe1 : roundHalfEven ((29 : ℚ)/100 * (2 : ℚ) ^ ((52 : ℤ) - (-2))) =
      5224175567749775 := by
    rw [hval]
    unfold roundHalfEven
    rw [hfl1, if_pos (by norm_num)]
  have ht : roundToDouble ((29 : ℚ)/100) = 5224175567749775/18014398509481984 := by
    unfold roundToDouble
    rw [if_neg (by norm_num), if_pos (by norm_num)]
    simp only [roundSig]
    rw [hlog, hrhe1]
    norm_num
  have hprod : (5224175567749775 : ℚ)/18014398509481984 * precisionQ =
      3265109729843609375/1125899906842624 := by
    norm_num [precisionQ, DECIMAL_POINTS]
  have hfl2 : ⌊(3265109729843609375 : ℚ)/1125899906842624⌋ = 2899 := by
    rw [Int.floor_eq_iff]
    constructor <;> norm_num
  have hlog2 : floorLog2 ((3265109729843609375 : ℚ)/1125899906842624) = 11 := by
    unfold floorLog2
    rw [if_neg (by norm_num), if_pos (by norm_num), hfl2]
    decide
  have hval2 : (3265109729843609375 : ℚ)/1125899906842624 * (2 : ℚ) ^ ((52 : ℤ) - 11) =
      3265109729843609375/512 := by
    norm_num
  have hfl3 : ⌊(3265109729843609375 : ℚ)/512⌋ = 6377167441100799 := by
    rw [Int.floor_eq_iff]
    constructor <;> norm_num
  have hrhe2 : roundHalfEven ((3265109729843609375 : ℚ)/1125899906842624 *
      (2 : ℚ) ^ ((52 : ℤ) - 11)) = 6377167441100800 := by
    rw [hval2]
    unfold roundHalfEven
    rw [hfl3, if_neg (by norm_num), if_pos (by norm_num)]
    norm_num
  have hfm : floatMul ((5224175567749775 : ℚ)/18014398509481984) precisionQ = 2900 := by
    unfold floatMul roundToDouble
    rw [hprod, if_neg (by norm_num), if_pos (by norm_num)]
    simp only [roundSig]
    rw [hlog2, hrhe2]
    norm_num
  constructor
  · unfold scaleTimeFloat
    rw [ht, hfm]
    unfold ratTrunc
    rw [if_pos (by norm_num)]
    norm_num
  · unfold keepTick
    rw [if_neg (by norm_num)]
    norm_num

/-- The binary64 value nearest 0.57, as an exact rational
(5134103575202365 * 2^-53, slightly above 57/100). -/
theorem roundToDouble_at_57 :
    roundToDouble ((57 : ℚ)/100) = 5134103575202365/9007199254740992 := by
  have hceil : ⌈((57 : ℚ)/100)⁻¹⌉ = 2 := by
    rw [Int.ceil_eq_iff]
    constructor <;> norm_num
  have hlog : floorLog2 ((57 : ℚ)/100) = -1 := by
    unfold floorLog2
    rw [if_neg (by norm_num), if_neg (by norm_num), hceil]
    decide
  have hval : (57 : ℚ)/100 * (2 : ℚ) ^ ((52 : ℤ) - (-1)) = 128352589380059136/25 := by
    norm_num
  have hfl1 : ⌊(128352589380059136 : ℚ)/25⌋ = 5134103575202365 := by
    rw [Int.floor_eq_iff]
    constructor <;> norm_num
  have hrhe1 : roundHalfEven ((57 : ℚ)/100 * (2 : ℚ) ^ ((52 : ℤ) - (-1))) =
      5134103575202365 := by
    rw [hval]
    unfold roundHalfEven
    rw [hfl1, if_pos (by norm_num)]
  unfold roundToDouble
  rw [if_neg (by norm_num), if_pos (by norm_num)]
  simp only [roundSig]
  rw [hlog, hrhe1]
  norm_num

/-- The binary64 product `double(0.57) * 10^4`: exactly 5699.99999999999927…
(6267216278323199 * 2^-40), strictly below 5700. -/
theorem floatMul_at_57 :
    floatMul ((5134103575202365 : ℚ)/9007199254740992) precisionQ =
      6267216278323199/1099511627776 := by
  have hprod : (5134103575202365 : ℚ)/9007199254740992 * precisionQ =
      3208814734501478125/562949953421312 := by
    norm_num [precisionQ, DECIMAL_POINTS]
  have hfl2 : ⌊(3208814734501478125 : ℚ)/562949953421312⌋ = 5699 := by
    rw [Int.floor_eq_iff]
    constructor <;> norm_num
  have hlog2 : floorLog2 ((3208814734501478125 : ℚ)/562949953421312) = 12 := by
    unfold floorLog2
    rw [if_neg (by norm_num), if_pos (by norm_num), hfl2]
    decide
  have hval2 : (3208814734501478125 : ℚ)/562949953421312 * (2 : ℚ) ^ ((52 : ℤ) - 12) =
      3208814734501478125/512 := by
    norm_num
  have hfl3 : ⌊(3208814734501478125 : ℚ)/512⌋ = 6267216278323199 := by
    rw [Int.floor_eq_iff]
    constructor <;> norm_num
  have hrhe2 : roundHalfEven ((3208814734501478125 : ℚ)/562949953421312 *
      (2 : ℚ) ^ ((52 : ℤ) - 12)) = 6267216278323199 := by
    rw [hval2]
    unfold roundHalfEven
    rw [hfl3, if_pos (by norm_num)]
  unfold floatMul roundToDouble
  rw [hprod, if_neg (by norm_num), if_pos (by norm_num)]
  simp only [roundSig]
  rw [hlog2, hrhe2]
  norm_num

theorem floor_float57_prod : ⌊(6267216278323199 : ℚ)/1099511627776⌋ = 5699 := by
  rw [Int.floor_eq_iff]
  constructor <;> norm_num

/-- Line 33 on the binary64 input nearest 0.57: the truncated fixed-point
index is 5699, one below the exact multiple 5700. -/
theorem scaleTimeFloat_at_57 : scaleTimeFloat (roundToDouble (57/100)) = 5699 := by
  unfold scaleTimeFloat
  rw [roundToDouble_at_57, floatMul_at_57]
  unfold ratTrunc
  rw [if_pos (by norm_num), floor_float57_prod]

/-- The off-by-one index 5699 is dropped by the step-0.01 grid filter. -/
theorem keepTick_5699_false : keepTick ((5699 : ℚ)) 100 = false := by
  unfold keepTick
  rw [if_neg (by norm_num)]
  have hfl5 : ⌊(5699 : ℚ)/((100 : ℤ) : ℚ)⌋ = 56 := by
    rw [Int.floor_eq_iff]
    constructor <;> norm_num
  rw [hfl5]
  norm_num

/-- C10 amended: line 33 truncates toward zero rather than rounding to
nearest, and a sample time whose binary64 product with 10^4 falls just below
the exact integer gets the fixed-point index one below the mathematically
exact multiple and so never coincides with its grid tick. The time 0.57 is
such a witness: the float product is 5699.99…, truncation gives 5699 while
round-to-nearest would give 5700, and index 5699 is dropped by the step-0.01
grid filter. (The claim's example 0.29 is not such a time: its float product
is exactly 2900.0.) -/
theorem C10_float_truncation :
    scaleTimeFloat (roundToDouble (57/100)) = 5699 ∧
      roundHalfEven (floatMul (roundToDouble (57/100)) precisionQ) = 5700 ∧
      keepTick ((5699 : ℚ)) 100 = false := by
  refine ⟨scaleTimeFloat_at_57, ?_, keepTick_5699_false⟩
  rw [roundToDouble_at_57, floatMul_at_57]
  unfold roundHalfEven
  rw [floor_float57_prod, if_neg (by norm_num), if_pos (by norm_num)]
  norm_num

/-- C9: idempotence under re-gridding fails in the program.  With the
program's own step 0.01 the grid time 0.57 is reachable, its exact
fixed-point index is 5700 (a grid index, kept by the modulo filter), but
line 33's binary64 multiply truncates the time to index 5699, which is off
the scaled grid and dropped by the filter: a series regular on the grid
loses its sample at 0.57 and refills that tick by interpolation from the
neighbours, so the original value is not reproduced. -/
theorem C9_float_scaling_defect :
    scaleTime (57/100) = 5700 ∧
      scaleTimeFloat (roundToDouble (57/100)) = 5699 ∧
      keepTick ((5700 : ℚ)) 100 = true ∧
      keepTick ((5699 : ℚ)) 100 = false := by
  refine ⟨scaleTime_eq (by norm_num [precisionQ, DECIMAL_POINTS]), scaleTimeFloat_at_57,
    ?_, keepTick_5699_false⟩
  have h := keepTick_mul 57 100 (by norm_num)
  norm_num at h
  exact h

/-- C7 counterexample to the claim's full breadth: the single-sample input
{(2, 9)} with max_value 3, step 1 and the program's default slinear method
is an error: scipy's `interp1d` refuses the single valid data point. -/
theorem C7_counterexample :
    resample_dataframe [((2 : ℚ), 9)] 3 1 "slinear" 1 =
      .error "x and y arrays must have at least 2 entries" := by
  norm_num [resample_dataframe, scaledDF, dedupLast, scaleTime, ratTrunc, precisionQ,
    DECIMAL_POINTS, newIndexOf, regularTicks, sortedUnion, List.insertionSort,
    List.orderedInsert, List.dedup, reindexDF, interpolateDF, supportedMethods,
    backendMethods, linear_not_mem_scipy, slinear_mem_scipy, nValid, findNextValid, List.filter]

theorem C7_single_sample_witness :
    ∃ out, resample_dataframe [((1 : ℚ), 7)] 3 1 "linear" 1 = .ok out ∧
      (∀ p ∈ out, p.2 = some (roundTo4 7)) ∧
      (∀ k : ℕ, k < ⌈(3 : ℚ) / 1⌉.toNat → ((k : ℚ) * 1, some (roundTo4 7)) ∈ out) :=
  C7_single_sample 1 7 3 1 "linear" 1 10000 (by norm_num)
    (by norm_num [precisionQ, DECIMAL_POINTS]) (by simp [supportedMethods])
    (by simp [scipyMethods])

end Resampling
